import Mathlib

/-!
Verification of the `python-ngram` library (module `ngram.py`).

The embedding models the `NGram` class, a set of items indexed by the
character N-grams of their padded string keys.  Python dictionaries are
modelled as association lists (`List (κ × ν)`) with Python's update
semantics: assignment to an existing key replaces the value in place,
assignment to a new key appends at the end, `del` removes the entry,
`setdefault` appends a default entry when the key is missing.  Python
`set` objects are modelled as `Finset`.  Python ints are `Nat`/`Int`,
floats are modelled as exact rationals (configuration parameters) and
real numbers (similarity scores); a Python `ZeroDivisionError` is
modelled by `Option.none`.
-/

set_option maxHeartbeats 1000000

/-- Strings are lists of characters. -/
abbrev Str : Type := List Char

section DictOps

variable {κ ν : Type} [DecidableEq κ]

/-- Python `d[k]`, as an option: first entry whose key is `k`. -/
def dlookup : List (κ × ν) → κ → Option ν
  | [], _ => none
  | (a, b) :: t, k => if a = k then some b else dlookup t k

/-- Python `d[k] = v`: replace the value of an existing key in place,
otherwise append the new entry at the end. -/
def dinsert : List (κ × ν) → κ → ν → List (κ × ν)
  | [], k, v => [(k, v)]
  | (a, b) :: t, k, v => if a = k then (k, v) :: t else (a, b) :: dinsert t k v

/-- Python `del d[k]`: drop the entry with key `k` (first occurrence). -/
def derase : List (κ × ν) → κ → List (κ × ν)
  | [], _ => []
  | (a, b) :: t, k => if a = k then t else (a, b) :: derase t k

/-- Python `d.setdefault(k, v)` (the resulting dictionary): append
`(k, v)` when `k` is missing, otherwise leave the dictionary unchanged. -/
def dsetdefault (d : List (κ × ν)) (k : κ) (v : ν) : List (κ × ν) :=
  match dlookup d k with
  | some _ => d
  | none => d ++ [(k, v)]

/-- The keys of the association list are pairwise distinct (always true
of a Python dictionary). -/
def dNodupKeys (d : List (κ × ν)) : Prop := (d.map Prod.fst).Nodup

instance (d : List (κ × ν)) : Decidable (dNodupKeys d) := by
  unfold dNodupKeys; infer_instance

end DictOps

/-- The configuration of an `NGram` index, fixed at construction:
gram size `N`, padding length and character, default similarity
threshold, warp exponent, and the item-to-string key function. -/
structure NGramConf (α : Type) where
  N : Nat
  pad_len : Nat
  pad_char : Char
  threshold : ℚ
  warp : ℚ
  key : α → Str

/-- The state of an `NGram` object: the base set (`members`, the
contents of the `set` superclass, modelled as a duplicate-free list in
insertion order; Python set equality is list-elements equality), the
gram index `_grams` mapping each gram to the items containing it with
occurrence counts, and `length` mapping each item to the length of its
padded key. -/
structure NGram (α : Type) [DecidableEq α] where
  conf : NGramConf α
  members : List α
  grams : List (Str × List (α × Nat))
  length : List (α × Nat)

variable {α : Type} [DecidableEq α]

/-- The derived padding string `self._padding = pad_char * pad_len`. -/
def padding (c : NGramConf α) : Str := List.replicate c.pad_len c.pad_char

/-- `NGram.pad`: surround a string with the padding string. -/
def pad (c : NGramConf α) (s : Str) : Str := padding c ++ s ++ padding c

/-- `NGram._split`: the n-grams of a string without padding, i.e.
`string[i:i+N]` for `i` in `range(len(string) - N + 1)`.  The Python
range is empty when `len(string) < N`; `s.length + 1 - N` is the
truncated-subtraction rendering of `max 0 (len - N + 1)`. -/
def splitRaw (N : Nat) (s : Str) : List Str :=
  (List.range (s.length + 1 - N)).map (fun i => (s.drop i).take N)

/-- `NGram.split`: pad a string and list its n-grams. -/
def split (c : NGramConf α) (s : Str) : List Str := splitRaw c.N (pad c s)

/-- The number of occurrences of gram `g` in the padded key of item `x`
(the mathematical reading of `_grams[g][x]`). -/
def gcount (c : NGramConf α) (x : α) (g : Str) : Nat :=
  (split c (c.key x)).count g

/-- One step of the gram-indexing loop in `NGram.add`:
`self._grams.setdefault(ngram, {}).setdefault(item, 0)` followed by
`self._grams[ngram][item] += 1`. -/
def addGram (G : List (Str × List (α × Nat))) (g : Str) (x : α) :
    List (Str × List (α × Nat)) :=
  let inner := (dlookup G g).getD []
  let cnt := (dlookup inner x).getD 0
  dinsert G g (dinsert inner x (cnt + 1))

/-- `NGram.add`: no-op when the item is already a member; otherwise add
it to the base set, record the padded key length, and increment the
gram counts for every gram occurrence of the padded key. -/
def add (n : NGram α) (x : α) : NGram α :=
  if x ∈ n.members then n
  else
    let padded := pad n.conf (n.conf.key x)
    { n with
      members := n.members ++ [x]
      length := dinsert n.length x padded.length
      grams := (splitRaw n.conf.N padded).foldl (fun G g => addGram G g x) n.grams }

/-- One step of the gram-deletion loop in `NGram.remove`:
`del self._grams[ngram][item]`.  When the outer key is absent the
Python code would raise `KeyError`; that situation is unreachable
because `remove` only deletes grams of a member's key, which the
well-formedness invariant guarantees to be present. -/
def removeGram (G : List (Str × List (α × Nat))) (g : Str) (x : α) :
    List (Str × List (α × Nat)) :=
  match dlookup G g with
  | none => G
  | some inner => dinsert G g (derase inner x)

/-- `NGram.remove`: guarded by `if item in self`, so removing a
non-member is a silent no-op.  For a member, remove it from the base
set, delete its `length` entry, and delete its entry from the inner
dictionary of every distinct gram of its padded key (the outer keys are
left behind, possibly with empty inner dictionaries). -/
def remove (n : NGram α) (x : α) : NGram α :=
  if x ∈ n.members then
    { n with
      members := n.members.erase x
      length := derase n.length x
      grams := (split n.conf (n.conf.key x)).dedup.foldl
        (fun G g => removeGram G g x) n.grams }
  else n

/-- `NGram.discard`: remove the item if present, otherwise do nothing.
(Named `discardItem` because the bare name collides with
`Functor.discard`.) -/
def discardItem (n : NGram α) (x : α) : NGram α :=
  if x ∈ n.members then remove n x else n

/-- `NGram.clear`: empty the base set, the gram index and the length
map, leaving the configuration untouched. -/
def clear (n : NGram α) : NGram α :=
  { n with members := [], grams := [], length := [] }

/-- A freshly constructed empty index with configuration `c`. -/
def emptyNG (c : NGramConf α) : NGram α :=
  { conf := c, members := [], grams := [], length := [] }

/-- `NGram.update` / the `items` argument of the constructor: add the
items one by one. -/
def build (c : NGramConf α) (items : List α) : NGram α :=
  items.foldl add (emptyNG c)

/-- `NGram.difference_update(other)`: discard every element of `other`,
iterated in the given order. -/
def difference_update (n : NGram α) (other : List α) : NGram α :=
  other.foldl discardItem n

/-- `NGram.intersection_update(other)`:
`self.difference_update(super().difference(other))`, i.e. discard every
current member not in `other`.  The iteration order of the intermediate
Python set is unspecified; the membership list order is one faithful
enumeration.  `other` is used only through membership tests. -/
def intersection_update (n : NGram α) (other : Finset α) : NGram α :=
  difference_update n (n.members.filter (fun x => x ∉ other))

/-- The loop state of `NGram.items_sharing_ngrams`: the `shared`
dictionary being built and the `remaining` budget dictionary mapping a
gram to an item to the number of that item's occurrences of the gram
not yet matched. -/
structure ShState (α : Type) where
  shared : List (α × Nat)
  remaining : List (Str × List (α × Nat))

/-- The body of the inner loop of `NGram.items_sharing_ngrams`, for one
`(match, count)` entry of `self._grams[ngram]`:
`remaining.setdefault(ngram, {}).setdefault(match, count)`, then if
`remaining[ngram][match] > 0`, decrement it, and increment
`shared.setdefault(match, 0)`. -/
def innerStep (g : Str) (st : ShState α) (mc : α × Nat) : ShState α :=
  let inner0 := (dlookup st.remaining g).getD []
  let inner1 := dsetdefault inner0 mc.1 mc.2
  let b := (dlookup inner1 mc.1).getD 0
  if 0 < b then
    { shared := dinsert st.shared mc.1 ((dlookup st.shared mc.1).getD 0 + 1)
      remaining := dinsert st.remaining g (dinsert inner1 mc.1 (b - 1)) }
  else
    { shared := st.shared
      remaining := dinsert st.remaining g inner1 }

/-- The body of the outer loop of `NGram.items_sharing_ngrams` for one
query gram: look the gram up in `self._grams` (the `try`/`except
KeyError` skips absent grams) and fold the inner loop over the entries
of the inner dictionary. -/
def gramStep (G : List (Str × List (α × Nat))) (st : ShState α) (g : Str) :
    ShState α :=
  match dlookup G g with
  | none => st
  | some I => I.foldl (innerStep g) st

/-- `NGram.items_sharing_ngrams`: the `shared` dictionary produced by
folding the loop body over the grams of the padded query. -/
def items_sharing_ngrams (n : NGram α) (q : Str) : List (α × Nat) :=
  ((split n.conf q).foldl (gramStep n.grams) ⟨[], []⟩).shared

section Similarity

open scoped Classical

/-- `NGram.ngram_similarity(samegrams, allgrams, warp)`.  Python floats
are modelled over the reals; the `ZeroDivisionError` raised when the
denominator is zero is modelled by `none`.  In the warp branch,
`allgrams ** warp` is real exponentiation; all reachable uses have
`allgrams ≥ 0`. -/
noncomputable def ngram_similarity (samegrams allgrams : ℤ) (warp : ℚ) :
    Option ℝ :=
  if |warp - 1| < (1 : ℚ) / 1000000000 then
    if allgrams = 0 then none
    else some ((samegrams : ℝ) / (allgrams : ℝ))
  else
    if ((allgrams : ℝ) ^ (warp : ℝ)) = 0 then none
    else some ((((allgrams : ℝ) ^ (warp : ℝ))
        - (((allgrams - samegrams : ℤ) : ℝ) ^ (warp : ℝ)))
      / ((allgrams : ℝ) ^ (warp : ℝ)))

/-- The `allgrams` expression computed in `NGram.search`:
`len(self.pad(query)) + self.length[match] - (2 * self.N) - samegrams + 2`.
The `length` lookup cannot fail for items produced by
`items_sharing_ngrams` on a well-formed index. -/
def allgramsOf (n : NGram α) (q : Str) (x : α) (samegrams : Nat) : ℤ :=
  ((pad n.conf q).length : ℤ) + (((dlookup n.length x).getD 0 : Nat) : ℤ)
    - 2 * (n.conf.N : ℤ) - (samegrams : ℤ) + 2

/-- The body of the result loop of `NGram.search` for one
`(match, samegrams)` entry of the `shared` dictionary: compute the
similarity and append the pair when it reaches the threshold.  A
`none` from `ngram_similarity` (a `ZeroDivisionError`) aborts the
whole call. -/
noncomputable def searchStep (n : NGram α) (q : Str) (t : ℚ)
    (acc : Option (List (α × ℝ))) (e : α × Nat) : Option (List (α × ℝ)) :=
  match acc with
  | none => none
  | some res =>
    match ngram_similarity (e.2 : ℤ) (allgramsOf n q e.1 e.2) n.conf.warp with
    | none => none
    | some s => if ((t : ℝ)) ≤ s then some (res ++ [(e.1, s)]) else some res

/-- `NGram.search(query, threshold)`: `threshold` defaults to the
configured one; collect `(item, similarity)` pairs over the `shared`
dictionary and sort them by decreasing similarity. -/
noncomputable def search (n : NGram α) (q : Str) (tOpt : Option ℚ) :
    Option (List (α × ℝ)) :=
  let t := tOpt.getD n.conf.threshold
  ((items_sharing_ngrams n q).foldl (searchStep n q t) (some [])).map
    (List.insertionSort (fun a b : α × ℝ => b.2 ≤ a.2))

end Similarity

/-- The multiset-intersection cardinality of the grams of the padded
query and the grams of the padded key of `x`:
the sum over grams `g` of `min(count of g in query, count of g in x)`. -/
def sharedGramCount (c : NGramConf α) (q : Str) (x : α) : Nat :=
  ∑ g ∈ (split c q).toFinset, min ((split c q).count g) (gcount c x g)

/-- The configuration errors raised by the `NGram` constructor, each
naming the offending parameter and carrying its illegal value
(Python raises `ValueError` with a message containing `repr(value)`). -/
inductive ConfigError : Type where
  | thresholdOutOfRange (value : ℚ)
  | warpOutOfRange (value : ℚ)
  | nOutOfRange (value : ℤ)
  | padLenOutOfRange (value : ℤ)
  | padCharNotSingleChar (value : Str)
  deriving DecidableEq

/-- The `NGram` constructor: validate the parameters in source order
(threshold, warp, N, pad_len with default `N - 1`, pad_char), then
build the index over the initial items.  The key function is typed
`α → Str`, so the Python `callable(key)` check cannot fail here. -/
def mkNGram (key : α → Str) (items : List α) (threshold warp : ℚ) (N : ℤ)
    (pad_len : Option ℤ) (pad_char : Str) : Except ConfigError (NGram α) :=
  if ¬(0 ≤ threshold ∧ threshold ≤ 1) then
    Except.error (ConfigError.thresholdOutOfRange threshold)
  else if ¬(1 ≤ warp ∧ warp ≤ 3) then
    Except.error (ConfigError.warpOutOfRange warp)
  else if ¬(1 ≤ N) then
    Except.error (ConfigError.nOutOfRange N)
  else
    let pl := pad_len.getD (N - 1)
    if ¬(0 ≤ pl ∧ pl < N) then
      Except.error (ConfigError.padLenOutOfRange pl)
    else if ¬(pad_char.length = 1) then
      Except.error (ConfigError.padCharNotSingleChar pad_char)
    else
      Except.ok (build
        { N := N.toNat, pad_len := pl.toNat, pad_char := pad_char.headD '$'
          threshold := threshold, warp := warp, key := key } items)

/-- The index states reachable through the public mutating operations.
`discard`, `clear`, `update`, `pop` and the set-algebra operations all
reduce to `add` and `remove` (or to a fresh empty index), so these
three constructors generate every reachable state. -/
inductive Reachable : NGram α → Prop where
  | empty (c : NGramConf α) : Reachable (emptyNG c)
  | add {n : NGram α} (x : α) : Reachable n → Reachable (add n x)
  | remove {n : NGram α} (x : α) : Reachable n → Reachable (remove n x)

/-- Two-level lookup in a gram table: `_grams[g][y]`, as an option. -/
def look2 (G : List (Str × List (α × Nat))) (g : Str) (y : α) : Option Nat :=
  (dlookup G g).bind (fun I => dlookup I y)

/-- The count stored in a gram table at `(g, y)`, zero when absent. -/
def cGv (G : List (Str × List (α × Nat))) (g : Str) (y : α) : Nat :=
  (look2 G g y).getD 0

/-- A count as an optional dictionary entry: `none` when zero.  The
`shared` dictionary only ever holds positive counts. -/
def posOpt (m : Nat) : Option Nat :=
  if m = 0 then none else some m

/-- The shared-gram total accumulated after processing the query-gram
prefix `p` against gram table `G`, for item `y`: the sum over the
distinct grams of `p` of `min(occurrences in p, stored count)`. -/
def Esum (G : List (Str × List (α × Nat))) (p : List Str) (y : α) : Nat :=
  ∑ g ∈ p.toFinset, min (p.count g) (cGv G g y)

/-- The loop invariant of `items_sharing_ngrams` after processing the
prefix `p` of the query grams: `shared` holds the accumulated positive
totals, and `remaining[g][y]` holds the unmatched budget
`stored - min(occurrences so far, stored)` exactly for the pairs
already encountered. -/
def ShInv (G : List (Str × List (α × Nat))) (p : List Str) (st : ShState α) :
    Prop :=
  (∀ y, dlookup st.shared y = posOpt (Esum G p y)) ∧
  (∀ g y, look2 st.remaining g y =
    if 0 < p.count g ∧ (look2 G g y).isSome
    then some (cGv G g y - min (p.count g) (cGv G g y)) else none)

/-- Well-formedness of an index state: all dictionaries have distinct
keys; every inner gram entry records a positive occurrence count of
that gram in the padded key of a member; members have entries for all
their grams; and `length` records each member's padded key length. -/
def WF (n : NGram α) : Prop :=
  n.members.Nodup ∧
  dNodupKeys n.grams ∧
  (∀ g I, dlookup n.grams g = some I → dNodupKeys I) ∧
  dNodupKeys n.length ∧
  (∀ g y cnt, look2 n.grams g y = some cnt →
    y ∈ n.members ∧ cnt = gcount n.conf y g ∧ 0 < cnt) ∧
  (∀ y, y ∈ n.members → ∀ g, 0 < gcount n.conf y g →
    look2 n.grams g y = some (gcount n.conf y g)) ∧
  (∀ y, y ∈ n.members →
    dlookup n.length y = some (pad n.conf (n.conf.key y)).length) ∧
  (∀ y L, dlookup n.length y = some L → y ∈ n.members)

section SearchPick

open scoped Classical

/-- The contribution of one `shared` entry to the result list of
`NGram.search` with effective threshold `t`: the scored pair when the
similarity is defined and reaches the threshold. -/
noncomputable def spick (n : NGram α) (q : Str) (t : ℚ) (e : α × Nat) :
    Option (α × ℝ) :=
  match ngram_similarity (e.2 : ℤ) (allgramsOf n q e.1 e.2) n.conf.warp with
  | none => none
  | some s => if ((t : ℝ)) ≤ s then some (e.1, s) else none

end SearchPick

/-! ### Pointwise lemmas for the dictionary operations -/

section DictLemmas

variable {κ ν : Type} [DecidableEq κ]

lemma dlookup_eq_none_iff {d : List (κ × ν)} {k : κ} :
    dlookup d k = none ↔ k ∉ d.map Prod.fst := by
  induction d with
  | nil => simp [dlookup]
  | cons hd tl ih =>
    obtain ⟨a, b⟩ := hd
    by_cases ha : a = k
    · subst ha
      simp [dlookup]
    · simp [dlookup, ha, ih, Ne.symm ha]

lemma dlookup_dinsert_self (d : List (κ × ν)) (k : κ) (v : ν) :
    dlookup (dinsert d k v) k = some v := by
  induction d with
  | nil => simp [dinsert, dlookup]
  | cons hd tl ih =>
    obtain ⟨a, b⟩ := hd
    by_cases h : a = k
    · simp [dinsert, dlookup, h]
    · simp [dinsert, dlookup, h, ih]

lemma dlookup_dinsert_ne (d : List (κ × ν)) (k : κ) (v : ν) (k' : κ)
    (h : k' ≠ k) : dlookup (dinsert d k v) k' = dlookup d k' := by
  induction d with
  | nil => simp [dinsert, dlookup, Ne.symm h]
  | cons hd tl ih =>
    obtain ⟨a, b⟩ := hd
    by_cases ha : a = k
    · subst ha
      simp [dinsert, dlookup, Ne.symm h]
    · simp [dinsert, dlookup, ha, ih]

lemma dlookup_derase_ne (d : List (κ × ν)) (k k' : κ) (h : k' ≠ k) :
    dlookup (derase d k) k' = dlookup d k' := by
  induction d with
  | nil => simp [derase]
  | cons hd tl ih =>
    obtain ⟨a, b⟩ := hd
    by_cases ha : a = k
    · subst ha
      simp [derase, dlookup, Ne.symm h]
    · simp [derase, dlookup, ha, ih]

lemma dlookup_derase_self (d : List (κ × ν)) (k : κ) (h : dNodupKeys d) :
    dlookup (derase d k) k = none := by
  induction d with
  | nil => simp [derase, dlookup]
  | cons hd tl ih =>
    obtain ⟨a, b⟩ := hd
    rw [dNodupKeys, List.map_cons, List.nodup_cons] at h
    by_cases ha : a = k
    · subst ha
      simp only [derase, if_pos rfl]
      exact dlookup_eq_none_iff.mpr h.1
    · simp only [derase, if_neg ha, dlookup, if_neg ha]
      exact ih h.2

lemma dlookup_dsetdefault_self (d : List (κ × ν)) (k : κ) (v : ν) :
    dlookup (dsetdefault d k v) k = some ((dlookup d k).getD v) := by
  unfold dsetdefault
  cases h : dlookup d k with
  | some w => simp [h]
  | none =>
    simp only [Option.getD_none]
    induction d with
    | nil => simp [dlookup]
    | cons hd tl ih =>
      obtain ⟨a, b⟩ := hd
      simp only [dlookup] at h
      by_cases ha : a = k
      · simp [ha] at h
      · simp only [if_neg ha] at h
        simpa [dlookup, ha] using ih h

lemma dlookup_dsetdefault_ne (d : List (κ × ν)) (k : κ) (v : ν) (k' : κ)
    (h : k' ≠ k) : dlookup (dsetdefault d k v) k' = dlookup d k' := by
  unfold dsetdefault
  cases hl : dlookup d k with
  | some w => rfl
  | none =>
    induction d with
    | nil => simp [dlookup, Ne.symm h]
    | cons hd tl ih =>
      obtain ⟨a, b⟩ := hd
      simp only [dlookup] at hl
      by_cases ha : a = k
      · simp [ha] at hl
      · simp only [if_neg ha] at hl
        by_cases ha' : a = k' <;>
          simp [List.cons_append, dlookup, ha', ih hl]

lemma dlookup_some_mem {d : List (κ × ν)} {k : κ} {v : ν}
    (h : dlookup d k = some v) : (k, v) ∈ d := by
  induction d with
  | nil => simp [dlookup] at h
  | cons hd tl ih =>
    obtain ⟨a, b⟩ := hd
    by_cases ha : a = k
    · subst ha
      have hb : b = v := by simpa [dlookup] using h
      subst hb
      exact List.mem_cons_self _ _
    · simp only [dlookup, if_neg ha] at h
      exact List.mem_cons_of_mem _ (ih h)

lemma mem_dlookup {d : List (κ × ν)} {k : κ} {v : ν} (hd : dNodupKeys d)
    (h : (k, v) ∈ d) : dlookup d k = some v := by
  induction d with
  | nil => simp at h
  | cons hd0 tl ih =>
    obtain ⟨a, b⟩ := hd0
    rw [dNodupKeys, List.map_cons, List.nodup_cons] at hd
    rcases List.mem_cons.mp h with h1 | h2
    · injection h1 with h1a h1b
      subst h1a
      subst h1b
      simp [dlookup]
    · have hak : a ≠ k := by
        rintro rfl
        exact hd.1 (List.mem_map.mpr ⟨(a, v), h2, rfl⟩)
      simp only [dlookup, if_neg hak]
      exact ih hd.2 h2

lemma keys_dinsert (d : List (κ × ν)) (k : κ) (v : ν) :
    (dinsert d k v).map Prod.fst =
      if k ∈ d.map Prod.fst then d.map Prod.fst
      else d.map Prod.fst ++ [k] := by
  induction d with
  | nil => simp [dinsert]
  | cons hd tl ih =>
    obtain ⟨a, b⟩ := hd
    by_cases ha : a = k
    · subst ha
      simp [dinsert]
    · by_cases hk : k ∈ tl.map Prod.fst <;>
        simp [dinsert, ha, Ne.symm ha, ih, hk]

lemma keys_derase (d : List (κ × ν)) (k : κ) :
    (derase d k).map Prod.fst = (d.map Prod.fst).erase k := by
  induction d with
  | nil => simp [derase]
  | cons hd tl ih =>
    obtain ⟨a, b⟩ := hd
    by_cases ha : a = k
    · subst ha
      simp [derase, List.erase_cons_head]
    · simp [derase, ha, ih, List.erase_cons_tail, Ne.symm ha]

lemma dNodupKeys_dinsert (d : List (κ × ν)) (k : κ) (v : ν)
    (h : dNodupKeys d) : dNodupKeys (dinsert d k v) := by
  unfold dNodupKeys at h ⊢
  rw [keys_dinsert]
  split_ifs with hk
  · exact h
  · rw [List.nodup_append]
    refine ⟨h, List.nodup_singleton _, fun x hx hx2 => ?_⟩
    have hxk : x = k := by simpa using hx2
    exact hk (hxk ▸ hx)

lemma dNodupKeys_derase (d : List (κ × ν)) (k : κ) (h : dNodupKeys d) :
    dNodupKeys (derase d k) := by
  unfold dNodupKeys at h ⊢
  rw [keys_derase]
  exact h.erase k

lemma dNodupKeys_dsetdefault (d : List (κ × ν)) (k : κ) (v : ν)
    (h : dNodupKeys d) : dNodupKeys (dsetdefault d k v) := by
  unfold dsetdefault
  cases hl : dlookup d k with
  | some w => exact h
  | none =>
    unfold dNodupKeys at h ⊢
    rw [List.map_append, List.nodup_append]
    refine ⟨h, by simp, fun x hx hx2 => ?_⟩
    have : x = k := by simpa using hx2
    exact (dlookup_eq_none_iff.mp hl) (this ▸ hx)

lemma derase_dinsert_of_not_mem (d : List (κ × ν)) (k : κ) (v : ν)
    (h : dlookup d k = none) : derase (dinsert d k v) k = d := by
  induction d with
  | nil => simp [dinsert, derase]
  | cons hd tl ih =>
    obtain ⟨a, b⟩ := hd
    simp only [dlookup] at h
    by_cases ha : a = k
    · simp [ha] at h
    · simp only [if_neg ha] at h
      simp [dinsert, derase, ha, ih h]

end DictLemmas

/-! ### Lemmas on the gram table under add and remove -/

lemma dlookup_getD_nil (R : List (Str × List (α × Nat))) (g : Str) (y : α) :
    dlookup ((dlookup R g).getD []) y = look2 R g y := by
  unfold look2
  cases dlookup R g <;> rfl

lemma look2_addGram_other {G : List (Str × List (α × Nat))} {g g0 : Str}
    {x : α} (y : α) (h : g ≠ g0) :
    look2 (addGram G g0 x) g y = look2 G g y := by
  unfold addGram look2
  rw [dlookup_dinsert_ne _ _ _ _ h]

lemma look2_addGram_same_ne {G : List (Str × List (α × Nat))} {g0 : Str}
    {x y : α} (h : y ≠ x) :
    look2 (addGram G g0 x) g0 y = look2 G g0 y := by
  unfold addGram
  rw [look2, dlookup_dinsert_self]
  simp only [Option.some_bind]
  rw [dlookup_dinsert_ne _ _ _ _ h, dlookup_getD_nil]

lemma look2_addGram_same_self {G : List (Str × List (α × Nat))} {g0 : Str}
    {x : α} :
    look2 (addGram G g0 x) g0 x = some ((look2 G g0 x).getD 0 + 1) := by
  unfold addGram
  rw [look2, dlookup_dinsert_self]
  simp only [Option.some_bind]
  rw [dlookup_dinsert_self, dlookup_getD_nil]

lemma look2_addFold_ne {x y : α} (h : y ≠ x) (gs : List Str)
    (G : List (Str × List (α × Nat))) (g : Str) :
    look2 (gs.foldl (fun G g => addGram G g x) G) g y = look2 G g y := by
  induction gs generalizing G with
  | nil => rfl
  | cons g0 gs ih =>
    rw [List.foldl_cons, ih]
    by_cases hg : g = g0
    · subst hg
      exact look2_addGram_same_ne h
    · exact look2_addGram_other y hg

lemma look2_addFold_self (x : α) (gs : List Str)
    (G : List (Str × List (α × Nat))) (g : Str) :
    look2 (gs.foldl (fun G g => addGram G g x) G) g x =
      if 0 < gs.count g then some ((look2 G g x).getD 0 + gs.count g)
      else look2 G g x := by
  induction gs generalizing G with
  | nil => simp
  | cons g0 gs ih =>
    rw [List.foldl_cons, ih]
    by_cases hg : g = g0
    · subst hg
      rw [look2_addGram_same_self, List.count_cons_self]
      by_cases hc : 0 < gs.count g
      · rw [if_pos hc, if_pos (by omega)]
        simp only [Option.getD_some]
        congr 1
        omega
      · rw [if_neg hc, if_pos (by omega)]
        congr 1
        omega
    · rw [List.count_cons_of_ne hg, look2_addGram_other x hg]

lemma nodup_addGram {G : List (Str × List (α × Nat))} {g0 : Str} {x : α}
    (h1 : dNodupKeys G) (h2 : ∀ g I, dlookup G g = some I → dNodupKeys I) :
    dNodupKeys (addGram G g0 x) ∧
      (∀ g I, dlookup (addGram G g0 x) g = some I → dNodupKeys I) := by
  unfold addGram
  refine ⟨dNodupKeys_dinsert _ _ _ h1, fun g I hI => ?_⟩
  by_cases hg : g = g0
  · subst hg
    rw [dlookup_dinsert_self, Option.some.injEq] at hI
    subst hI
    refine dNodupKeys_dinsert _ _ _ ?_
    cases hG : dlookup G g with
    | none => simp [hG, dNodupKeys]
    | some I0 => simpa [hG] using h2 g I0 hG
  · rw [dlookup_dinsert_ne _ _ _ _ hg] at hI
    exact h2 g I hI

lemma nodup_addFold {x : α} (gs : List Str)
    {G : List (Str × List (α × Nat))}
    (h1 : dNodupKeys G) (h2 : ∀ g I, dlookup G g = some I → dNodupKeys I) :
    dNodupKeys (gs.foldl (fun G g => addGram G g x) G) ∧
      (∀ g I, dlookup (gs.foldl (fun G g => addGram G g x) G) g = some I →
        dNodupKeys I) := by
  induction gs generalizing G with
  | nil => exact ⟨h1, h2⟩
  | cons g0 gs ih =>
    rw [List.foldl_cons]
    obtain ⟨n1, n2⟩ := nodup_addGram h1 h2
    exact ih n1 n2

lemma look2_removeGram_other {G : List (Str × List (α × Nat))} {g g0 : Str}
    {x : α} (y : α) (h : g ≠ g0) :
    look2 (removeGram G g0 x) g y = look2 G g y := by
  unfold removeGram
  cases hG : dlookup G g0 with
  | none => rfl
  | some I =>
    rw [look2, dlookup_dinsert_ne _ _ _ _ h]
    rfl

lemma look2_removeGram_same_ne {G : List (Str × List (α × Nat))} {g0 : Str}
    {x y : α} (h : y ≠ x) :
    look2 (removeGram G g0 x) g0 y = look2 G g0 y := by
  unfold removeGram
  cases hG : dlookup G g0 with
  | none => rfl
  | some I =>
    rw [look2, dlookup_dinsert_self]
    simp only [Option.some_bind]
    rw [dlookup_derase_ne _ _ _ h, look2, hG]
    rfl

lemma look2_removeGram_same_self {G : List (Str × List (α × Nat))}
    {g0 : Str} {x : α}
    (h2 : ∀ g I, dlookup G g = some I → dNodupKeys I) :
    look2 (removeGram G g0 x) g0 x = none := by
  unfold removeGram
  cases hG : dlookup G g0 with
  | none =>
    rw [look2, hG]
    rfl
  | some I =>
    rw [look2, dlookup_dinsert_self]
    simp only [Option.some_bind]
    exact dlookup_derase_self _ _ (h2 g0 I hG)

lemma nodup_removeGram {G : List (Str × List (α × Nat))} {g0 : Str} {x : α}
    (h1 : dNodupKeys G) (h2 : ∀ g I, dlookup G g = some I → dNodupKeys I) :
    dNodupKeys (removeGram G g0 x) ∧
      (∀ g I, dlookup (removeGram G g0 x) g = some I → dNodupKeys I) := by
  unfold removeGram
  cases hG : dlookup G g0 with
  | none => exact ⟨h1, h2⟩
  | some I0 =>
    refine ⟨dNodupKeys_dinsert _ _ _ h1, fun g I hI => ?_⟩
    by_cases hg : g = g0
    · subst hg
      rw [dlookup_dinsert_self, Option.some.injEq] at hI
      subst hI
      exact dNodupKeys_derase _ _ (h2 g I0 hG)
    · rw [dlookup_dinsert_ne _ _ _ _ hg] at hI
      exact h2 g I hI

lemma nodup_removeFold {x : α} (ds : List Str)
    {G : List (Str × List (α × Nat))}
    (h1 : dNodupKeys G) (h2 : ∀ g I, dlookup G g = some I → dNodupKeys I) :
    dNodupKeys (ds.foldl (fun G g => removeGram G g x) G) ∧
      (∀ g I, dlookup (ds.foldl (fun G g => removeGram G g x) G) g = some I →
        dNodupKeys I) := by
  induction ds generalizing G with
  | nil => exact ⟨h1, h2⟩
  | cons g0 ds ih =>
    rw [List.foldl_cons]
    obtain ⟨n1, n2⟩ := nodup_removeGram h1 h2
    exact ih n1 n2

lemma look2_removeFold_ne {x y : α} (h : y ≠ x) (ds : List Str)
    (G : List (Str × List (α × Nat))) (g : Str) :
    look2 (ds.foldl (fun G g => removeGram G g x) G) g y = look2 G g y := by
  induction ds generalizing G with
  | nil => rfl
  | cons g0 ds ih =>
    rw [List.foldl_cons, ih]
    by_cases hg : g = g0
    · subst hg
      exact look2_removeGram_same_ne h
    · exact look2_removeGram_other y hg

lemma look2_removeFold_self (x : α) (ds : List Str)
    {G : List (Str × List (α × Nat))}
    (h1 : dNodupKeys G) (h2 : ∀ g I, dlookup G g = some I → dNodupKeys I)
    (g : Str) :
    look2 (ds.foldl (fun G g => removeGram G g x) G) g x =
      if g ∈ ds then none else look2 G g x := by
  induction ds generalizing G with
  | nil => simp
  | cons g0 ds ih =>
    rw [List.foldl_cons]
    have hstep : dNodupKeys (removeGram G g0 x) ∧
        (∀ g I, dlookup (removeGram G g0 x) g = some I → dNodupKeys I) :=
      nodup_removeGram h1 h2
    obtain ⟨n1, n2⟩ := hstep
    rw [ih n1 n2]
    by_cases hmem : g ∈ ds
    · simp [hmem]
    · rw [if_neg hmem]
      by_cases hg : g = g0
      · subst hg
        rw [if_pos (List.mem_cons_self _ _)]
        exact look2_removeGram_same_self h2
      · rw [if_neg (by simp [hg, hmem]), look2_removeGram_other x hg]

/-! ### State lemmas and preservation of well-formedness -/

lemma conf_add (n : NGram α) (x : α) : (add n x).conf = n.conf := by
  unfold add
  split_ifs <;> rfl

lemma conf_remove (n : NGram α) (x : α) : (remove n x).conf = n.conf := by
  unfold remove
  split_ifs <;> rfl

lemma conf_discardItem (n : NGram α) (x : α) :
    (discardItem n x).conf = n.conf := by
  unfold discardItem
  split_ifs with h
  · exact conf_remove n x
  · rfl

lemma members_remove (n : NGram α) (x : α) :
    (remove n x).members = n.members.erase x := by
  unfold remove
  split_ifs with h
  · rfl
  · rw [List.erase_of_not_mem h]

lemma members_discardItem (n : NGram α) (x : α) :
    (discardItem n x).members = n.members.erase x := by
  unfold discardItem
  split_ifs with h
  · exact members_remove n x
  · rw [List.erase_of_not_mem h]

lemma add_fields {n : NGram α} {x : α} (hx : x ∉ n.members) :
    (add n x).conf = n.conf ∧
    (add n x).members = n.members ++ [x] ∧
    (add n x).grams = (split n.conf (n.conf.key x)).foldl
      (fun G g => addGram G g x) n.grams ∧
    (add n x).length =
      dinsert n.length x (pad n.conf (n.conf.key x)).length := by
  unfold add
  rw [if_neg hx]
  exact ⟨rfl, rfl, rfl, rfl⟩

lemma remove_fields {n : NGram α} {x : α} (hx : x ∈ n.members) :
    (remove n x).conf = n.conf ∧
    (remove n x).members = n.members.erase x ∧
    (remove n x).grams = (split n.conf (n.conf.key x)).dedup.foldl
      (fun G g => removeGram G g x) n.grams ∧
    (remove n x).length = derase n.length x := by
  unfold remove
  rw [if_pos hx]
  exact ⟨rfl, rfl, rfl, rfl⟩

lemma look2_none_of_not_mem {n : NGram α} (h : WF n) {x : α}
    (hx : x ∉ n.members) (g : Str) : look2 n.grams g x = none := by
  cases hc : look2 n.grams g x with
  | none => rfl
  | some cnt => exact absurd (h.2.2.2.2.1 g x cnt hc).1 hx

lemma WF_emptyNG (c : NGramConf α) : WF (emptyNG c) := by
  refine ⟨List.nodup_nil, by simp [dNodupKeys, emptyNG], ?_,
    by simp [dNodupKeys, emptyNG], ?_, ?_, ?_, ?_⟩
  · intro g I hI
    simp [emptyNG, dlookup] at hI
  · intro g y cnt hc
    simp [emptyNG, look2, dlookup] at hc
  · intro y hy
    simp [emptyNG] at hy
  · intro y hy
    simp [emptyNG] at hy
  · intro y L hL
    simp [emptyNG, dlookup] at hL

lemma WF_add {n : NGram α} (h : WF n) (x : α) : WF (add n x) := by
  by_cases hx : x ∈ n.members
  · rw [show add n x = n by unfold add; rw [if_pos hx]]
    exact h
  obtain ⟨hc, hm, hg, hl⟩ := add_fields hx
  obtain ⟨hmN, hg1, hg2, hl1, hW2, hW3, hW4, hW5⟩ := h
  have hnone : ∀ g, look2 n.grams g x = none :=
    look2_none_of_not_mem ⟨hmN, hg1, hg2, hl1, hW2, hW3, hW4, hW5⟩ hx
  obtain ⟨ng1, ng2⟩ := nodup_addFold
    (x := x) (split n.conf (n.conf.key x)) hg1 hg2
  rw [WF, hc, hm, hg, hl]
  refine ⟨?_, ng1, ng2, dNodupKeys_dinsert _ _ _ hl1, ?_, ?_, ?_, ?_⟩
  · rw [List.nodup_append]
    exact ⟨hmN, List.nodup_singleton _,
      fun a ha hax => hx ((List.mem_singleton.mp hax) ▸ ha)⟩
  · intro g y cnt hcnt
    by_cases hy : y = x
    · subst hy
      rw [look2_addFold_self, hnone g] at hcnt
      by_cases hcg : 0 < (split n.conf (n.conf.key y)).count g
      · rw [if_pos hcg] at hcnt
        simp only [Option.getD_none, Nat.zero_add, Option.some.injEq] at hcnt
        subst hcnt
        exact ⟨List.mem_append_right _ (List.mem_singleton_self _), rfl, hcg⟩
      · rw [if_neg hcg] at hcnt
        exact absurd hcnt (by simp)
    · rw [look2_addFold_ne hy] at hcnt
      obtain ⟨hmem, he, hp⟩ := hW2 g y cnt hcnt
      exact ⟨List.mem_append_left _ hmem, he, hp⟩
  · intro y hy g hgc
    rcases List.mem_append.mp hy with hy1 | hy1
    · have hyx : y ≠ x := fun hh => hx (hh ▸ hy1)
      rw [look2_addFold_ne hyx]
      exact hW3 y hy1 g hgc
    · have hyx : y = x := List.mem_singleton.mp hy1
      subst hyx
      unfold gcount at hgc ⊢
      rw [look2_addFold_self, hnone g, if_pos hgc,
        Option.getD_none, Nat.zero_add]
  · intro y hy
    rcases List.mem_append.mp hy with hy1 | hy1
    · have hyx : y ≠ x := fun hh => hx (hh ▸ hy1)
      rw [dlookup_dinsert_ne _ _ _ _ hyx]
      exact hW4 y hy1
    · have hyx : y = x := List.mem_singleton.mp hy1
      subst hyx
      rw [dlookup_dinsert_self]
  · intro y L hL
    by_cases hyx : y = x
    · subst hyx
      exact List.mem_append_right _ (List.mem_singleton_self _)
    · rw [dlookup_dinsert_ne _ _ _ _ hyx] at hL
      exact List.mem_append_left _ (hW5 y L hL)

lemma WF_remove {n : NGram α} (h : WF n) (x : α) : WF (remove n x) := by
  by_cases hx : x ∈ n.members
  case neg =>
    rw [show remove n x = n by unfold remove; rw [if_neg hx]]
    exact h
  obtain ⟨hc, hm, hg, hl⟩ := remove_fields hx
  obtain ⟨hmN, hg1, hg2, hl1, hW2, hW3, hW4, hW5⟩ := h
  obtain ⟨ng1, ng2⟩ := nodup_removeFold
    (x := x) (split n.conf (n.conf.key x)).dedup hg1 hg2
  rw [WF, hc, hm, hg, hl]
  refine ⟨hmN.erase x, ng1, ng2, dNodupKeys_derase _ _ hl1, ?_, ?_, ?_, ?_⟩
  · intro g y cnt hcnt
    by_cases hy : y = x
    · subst hy
      rw [look2_removeFold_self y _ hg1 hg2] at hcnt
      by_cases hmem : g ∈ (split n.conf (n.conf.key y)).dedup
      · rw [if_pos hmem] at hcnt
        exact absurd hcnt (by simp)
      · rw [if_neg hmem] at hcnt
        obtain ⟨hm2, he, hp⟩ := hW2 g y cnt hcnt
        exfalso
        refine hmem (List.mem_dedup.mpr ?_)
        have hpos : 0 < gcount n.conf y g := he ▸ hp
        rw [gcount] at hpos
        exact List.count_pos_iff.mp hpos
    · rw [look2_removeFold_ne hy] at hcnt
      obtain ⟨hm2, he, hp⟩ := hW2 g y cnt hcnt
      exact ⟨(List.mem_erase_of_ne hy).mpr hm2, he, hp⟩
  · intro y hy g hgc
    obtain ⟨hyx, hym⟩ := hmN.mem_erase_iff.mp hy
    rw [look2_removeFold_ne hyx]
    exact hW3 y hym g hgc
  · intro y hy
    obtain ⟨hyx, hym⟩ := hmN.mem_erase_iff.mp hy
    rw [dlookup_derase_ne _ _ _ hyx]
    exact hW4 y hym
  · intro y L hL
    by_cases hyx : y = x
    · subst hyx
      rw [dlookup_derase_self _ _ hl1] at hL
      exact absurd hL (by simp)
    · rw [dlookup_derase_ne _ _ _ hyx] at hL
      exact (List.mem_erase_of_ne hyx).mpr (hW5 y L hL)

lemma reach_WF {n : NGram α} (h : Reachable n) : WF n := by
  induction h with
  | empty c => exact WF_emptyNG c
  | add x _ ih => exact WF_add ih x
  | remove x _ ih => exact WF_remove ih x

lemma reach_discardItem {n : NGram α} (h : Reachable n) (x : α) :
    Reachable (discardItem n x) := by
  unfold discardItem
  split_ifs with hx
  · exact Reachable.remove x h
  · exact h

lemma reach_foldl_add {n : NGram α} (h : Reachable n) (l : List α) :
    Reachable (l.foldl add n) := by
  induction l generalizing n with
  | nil => exact h
  | cons a l ih => exact ih (Reachable.add a h)

lemma reach_build (c : NGramConf α) (items : List α) :
    Reachable (build c items) :=
  reach_foldl_add (Reachable.empty c) items

lemma reach_foldl_discardItem {n : NGram α} (h : Reachable n) (l : List α) :
    Reachable (l.foldl discardItem n) := by
  induction l generalizing n with
  | nil => exact h
  | cons a l ih => exact ih (reach_discardItem h a)

lemma reach_difference_update {n : NGram α} (h : Reachable n)
    (other : List α) : Reachable (difference_update n other) :=
  reach_foldl_discardItem h other

lemma reach_intersection_update {n : NGram α} (h : Reachable n)
    (other : Finset α) : Reachable (intersection_update n other) :=
  reach_foldl_discardItem h _

lemma reach_clear (n : NGram α) : Reachable (clear n) :=
  Reachable.empty n.conf

/-! ### The items_sharing_ngrams loop invariant -/

lemma posOpt_getD (m : Nat) : (posOpt m).getD 0 = m := by
  unfold posOpt
  split_ifs with h
  · simp [h]
  · rfl

lemma posOpt_pos {m : Nat} (h : 0 < m) : posOpt m = some m := by
  unfold posOpt
  rw [if_neg (by omega)]

lemma Esum_nil (G : List (Str × List (α × Nat))) (y : α) :
    Esum G [] y = 0 := by
  simp [Esum]

lemma Esum_append (G : List (Str × List (α × Nat))) (p : List Str)
    (g0 : Str) (y : α) :
    Esum G (p ++ [g0]) y =
      Esum G p y + (min (p.count g0 + 1) (cGv G g0 y)
        - min (p.count g0) (cGv G g0 y)) := by
  unfold Esum
  have hcrest : ∀ g, g ≠ g0 → (p ++ [g0]).count g = p.count g := by
    intro g hg
    simp [List.count_append, List.count_cons, List.count_nil, hg]
  have hcg0 : (p ++ [g0]).count g0 = p.count g0 + 1 := by
    simp [List.count_append, List.count_cons, List.count_nil]
  have htf : (p ++ [g0]).toFinset = insert g0 p.toFinset := by
    rw [List.toFinset_append, Finset.union_comm, Finset.insert_eq]
    simp
  rw [htf]
  by_cases hg0 : g0 ∈ p.toFinset
  · rw [Finset.insert_eq_self.mpr hg0]
    have hterm : ∀ g ∈ p.toFinset,
        min ((p ++ [g0]).count g) (cGv G g y) =
          min (p.count g) (cGv G g y) +
            (if g = g0 then min (p.count g0 + 1) (cGv G g0 y)
              - min (p.count g0) (cGv G g0 y) else 0) := by
      intro g hg
      by_cases hgg : g = g0
      · subst hgg
        rw [if_pos rfl, hcg0]
        omega
      · rw [hcrest g hgg, if_neg hgg, Nat.add_zero]
    rw [Finset.sum_congr rfl hterm, Finset.sum_add_distrib,
      Finset.sum_ite_eq' p.toFinset g0, if_pos hg0]
  · rw [Finset.sum_insert hg0, hcg0]
    have hc0 : p.count g0 = 0 :=
      List.count_eq_zero.mpr (fun hmem => hg0 (List.mem_toFinset.mpr hmem))
    have hrest : ∀ g ∈ p.toFinset,
        min ((p ++ [g0]).count g) (cGv G g y) =
          min (p.count g) (cGv G g y) := by
      intro g hg
      rw [hcrest g (fun hgg => hg0 (hgg ▸ hg))]
    rw [Finset.sum_congr rfl hrest, hc0]
    omega

lemma innerStep_shared_ne (g0 : Str) (st : ShState α) (mc : α × Nat)
    {y : α} (hy : y ≠ mc.1) :
    dlookup (innerStep g0 st mc).shared y = dlookup st.shared y := by
  simp only [innerStep]
  split_ifs with h
  · exact dlookup_dinsert_ne _ _ _ _ hy
  · rfl

lemma innerStep_remaining_other (g0 : Str) (st : ShState α) (mc : α × Nat)
    {g : Str} (hg : g ≠ g0) :
    dlookup (innerStep g0 st mc).remaining g = dlookup st.remaining g := by
  simp only [innerStep]
  split_ifs with h
  · exact dlookup_dinsert_ne _ _ _ _ hg
  · exact dlookup_dinsert_ne _ _ _ _ hg

lemma innerStep_remaining_same_ne (g0 : Str) (st : ShState α)
    (mc : α × Nat) {y : α} (hy : y ≠ mc.1) :
    look2 (innerStep g0 st mc).remaining g0 y =
      look2 st.remaining g0 y := by
  simp only [innerStep]
  split_ifs with h
  · rw [look2, dlookup_dinsert_self, Option.some_bind,
      dlookup_dinsert_ne _ _ _ _ hy, dlookup_dsetdefault_ne _ _ _ _ hy,
      dlookup_getD_nil]
  · rw [look2, dlookup_dinsert_self, Option.some_bind,
      dlookup_dsetdefault_ne _ _ _ _ hy, dlookup_getD_nil]

lemma innerStep_budget (g0 : Str) (st : ShState α) (mc : α × Nat) :
    (dlookup (dsetdefault ((dlookup st.remaining g0).getD []) mc.1 mc.2)
        mc.1).getD 0 =
      (look2 st.remaining g0 mc.1).getD mc.2 := by
  rw [dlookup_dsetdefault_self, Option.getD_some, dlookup_getD_nil]

lemma innerStep_remaining_self (g0 : Str) (st : ShState α) (mc : α × Nat) :
    look2 (innerStep g0 st mc).remaining g0 mc.1 =
      some ((look2 st.remaining g0 mc.1).getD mc.2 - 1) := by
  simp only [innerStep, innerStep_budget]
  split_ifs with h
  · rw [look2, dlookup_dinsert_self, Option.some_bind, dlookup_dinsert_self]
  · rw [look2, dlookup_dinsert_self, Option.some_bind,
      dlookup_dsetdefault_self, dlookup_getD_nil]
    congr 1
    omega

lemma innerStep_shared_self (g0 : Str) (st : ShState α) (mc : α × Nat) :
    dlookup (innerStep g0 st mc).shared mc.1 =
      if 0 < (look2 st.remaining g0 mc.1).getD mc.2
      then some ((dlookup st.shared mc.1).getD 0 + 1)
      else dlookup st.shared mc.1 := by
  simp only [innerStep, innerStep_budget]
  split_ifs with h
  · rw [dlookup_dinsert_self]
  · rfl

lemma innerFold_spec (g0 : Str) (I : List (α × Nat)) (hI : dNodupKeys I)
    (st : ShState α) :
    (∀ g, g ≠ g0 →
      dlookup (I.foldl (innerStep g0) st).remaining g =
        dlookup st.remaining g) ∧
    (∀ y, dlookup I y = none →
      dlookup (I.foldl (innerStep g0) st).shared y = dlookup st.shared y ∧
      look2 (I.foldl (innerStep g0) st).remaining g0 y =
        look2 st.remaining g0 y) ∧
    (∀ y c, dlookup I y = some c →
      look2 (I.foldl (innerStep g0) st).remaining g0 y =
        some (((look2 st.remaining g0 y).getD c) - 1) ∧
      dlookup (I.foldl (innerStep g0) st).shared y =
        if 0 < (look2 st.remaining g0 y).getD c
        then some ((dlookup st.shared y).getD 0 + 1)
        else dlookup st.shared y) := by
  induction I generalizing st with
  | nil =>
    refine ⟨fun g hg => rfl, fun y hy => ⟨rfl, rfl⟩, fun y c hc => ?_⟩
    simp [dlookup] at hc
  | cons mc I ih =>
    rw [dNodupKeys, List.map_cons, List.nodup_cons] at hI
    obtain ⟨ih1, ih2, ih3⟩ := ih hI.2 (innerStep g0 st mc)
    rw [List.foldl_cons]
    refine ⟨?_, ?_, ?_⟩
    · intro g hg
      rw [ih1 g hg, innerStep_remaining_other g0 st mc hg]
    · intro y hy
      have hym : y ≠ mc.1 := by
        intro hh
        subst hh
        simp [dlookup] at hy
      simp only [dlookup, if_neg (Ne.symm hym)] at hy
      obtain ⟨s1, s2⟩ := ih2 y hy
      exact ⟨s1.trans (innerStep_shared_ne g0 st mc hym),
        s2.trans (innerStep_remaining_same_ne g0 st mc hym)⟩
    · intro y c hc
      by_cases hym : y = mc.1
      · subst hym
        have hcc : mc.2 = c := by
          simpa [dlookup] using hc
        subst hcc
        have htl : dlookup I mc.1 = none :=
          dlookup_eq_none_iff.mpr hI.1
        obtain ⟨s1, s2⟩ := ih2 mc.1 htl
        exact ⟨s2.trans (innerStep_remaining_self g0 st mc),
          s1.trans (innerStep_shared_self g0 st mc)⟩
      · have hne : ¬(mc.1 = y) := fun hh => hym (Eq.symm hh)
        simp only [dlookup, if_neg hne] at hc
        obtain ⟨s1, s2⟩ := ih3 y c hc
        rw [innerStep_remaining_same_ne g0 st mc hym] at s1
        rw [innerStep_remaining_same_ne g0 st mc hym,
          innerStep_shared_ne g0 st mc hym] at s2
        exact ⟨s1, s2⟩

lemma count_append_singleton_self (p : List Str) (g0 : Str) :
    (p ++ [g0]).count g0 = p.count g0 + 1 := by
  simp [List.count_append, List.count_cons, List.count_nil]

lemma count_append_singleton_ne (p : List Str) {g g0 : Str} (h : g ≠ g0) :
    (p ++ [g0]).count g = p.count g := by
  simp [List.count_append, List.count_cons, List.count_nil, h]

lemma shInv_gramStep (G : List (Str × List (α × Nat)))
    (hG : ∀ g I, dlookup G g = some I → dNodupKeys I) (p : List Str)
    (st : ShState α) (h : ShInv G p st) (g0 : Str) :
    ShInv G (p ++ [g0]) (gramStep G st g0) := by
  obtain ⟨h1, h2⟩ := h
  unfold gramStep
  cases hg : dlookup G g0 with
  | none =>
    constructor
    · intro y
      rw [h1 y, Esum_append]
      have hc : cGv G g0 y = 0 := by
        unfold cGv look2
        rw [hg]
        rfl
      rw [hc]
      simp
    · intro g y
      rw [h2 g y]
      by_cases hgg : g = g0
      · subst hgg
        have hnone : look2 G g y = none := by
          unfold look2
          rw [hg]
          rfl
        simp [hnone]
      · rw [count_append_singleton_ne p hgg]
  | some I =>
    obtain ⟨f1, f2, f3⟩ := innerFold_spec g0 I (hG g0 I hg) st
    constructor
    · intro y
      cases hy : dlookup I y with
      | none =>
        rw [(f2 y hy).1, h1 y, Esum_append]
        have hc : cGv G g0 y = 0 := by
          unfold cGv look2
          rw [hg]
          simp [hy]
        rw [hc]
        simp
      | some c =>
        have hsome : look2 G g0 y = some c := by
          unfold look2
          rw [hg]
          simpa using hy
        have hcGv : cGv G g0 y = c := by
          unfold cGv
          rw [hsome]
          rfl
        have hb0 : (look2 st.remaining g0 y).getD c =
            c - min (p.count g0) c := by
          rw [h2 g0 y, hsome]
          by_cases hkp : 0 < p.count g0
          · simp only [Option.isSome_some, and_true, if_pos hkp,
              Option.getD_some, hcGv]
          · rw [if_neg (fun hand => hkp hand.1)]
            have hk0 : p.count g0 = 0 := by omega
            rw [hk0]
            simp
        rw [(f3 y c hy).2, h1 y, Esum_append, hcGv, hb0, posOpt_getD]
        by_cases hcb : 0 < c - min (p.count g0) c
        · rw [if_pos hcb]
          have hδ : min (p.count g0 + 1) c - min (p.count g0) c = 1 := by
            omega
          rw [hδ, posOpt_pos (by omega)]
        · rw [if_neg hcb]
          have hδ : min (p.count g0 + 1) c - min (p.count g0) c = 0 := by
            omega
          rw [hδ, Nat.add_zero]
    · intro g y
      by_cases hgg : g = g0
      · subst hgg
        cases hy : dlookup I y with
        | none =>
          rw [(f2 y hy).2, h2 g y]
          have hnone : look2 G g y = none := by
            unfold look2
            rw [hg]
            simpa using hy
          simp [hnone]
        | some c =>
          have hsome : look2 G g y = some c := by
            unfold look2
            rw [hg]
            simpa using hy
          have hcGv : cGv G g y = c := by
            unfold cGv
            rw [hsome]
            rfl
          have hb0 : (look2 st.remaining g y).getD c =
              c - min (p.count g) c := by
            rw [h2 g y, hsome]
            by_cases hkp : 0 < p.count g
            · simp only [Option.isSome_some, and_true, if_pos hkp,
                Option.getD_some, hcGv]
            · rw [if_neg (fun hand => hkp hand.1)]
              have hk0 : p.count g = 0 := by omega
              rw [hk0]
              simp
          rw [(f3 y c hy).1, hb0, count_append_singleton_self, hsome, hcGv]
          simp only [Option.isSome_some, and_true]
          rw [if_pos (by omega)]
          congr 1
          omega
      · have hf1 := f1 g hgg
        have hold := h2 g y
        unfold look2 at hold ⊢
        rw [hf1, hold, count_append_singleton_ne p hgg]

lemma shInv_foldl (G : List (Str × List (α × Nat)))
    (hG : ∀ g I, dlookup G g = some I → dNodupKeys I) (qs : List Str) :
    ∀ (p : List Str) (st : ShState α), ShInv G p st →
      ShInv G (p ++ qs) (qs.foldl (gramStep G) st) := by
  induction qs with
  | nil =>
    intro p st h
    simpa using h
  | cons g0 qs ih =>
    intro p st h
    have hstep := shInv_gramStep G hG p st h g0
    have hrest := ih (p ++ [g0]) (gramStep G st g0) hstep
    rw [List.foldl_cons]
    simpa [List.append_assoc] using hrest

lemma shInv_init (G : List (Str × List (α × Nat))) :
    ShInv G [] (⟨[], []⟩ : ShState α) := by
  constructor
  · intro y
    simp [dlookup, posOpt, Esum_nil]
  · intro g y
    simp [look2, dlookup, List.count_nil]

lemma items_sharing_eq (n : NGram α) (q : Str)
    (hG : ∀ g I, dlookup n.grams g = some I → dNodupKeys I) (y : α) :
    dlookup (items_sharing_ngrams n q) y =
      posOpt (Esum n.grams (split n.conf q) y) := by
  have h := shInv_foldl n.grams hG (split n.conf q) [] ⟨[], []⟩
    (shInv_init n.grams)
  unfold items_sharing_ngrams
  have hy := h.1 y
  simpa using hy

lemma cGv_eq_gcount {n : NGram α} (h : WF n) {y : α} (hy : y ∈ n.members)
    (g : Str) : cGv n.grams g y = gcount n.conf y g := by
  cases hc : look2 n.grams g y with
  | some cnt =>
    have he := (h.2.2.2.2.1 g y cnt hc).2.1
    unfold cGv
    rw [hc]
    simpa using he
  | none =>
    unfold cGv
    rw [hc]
    rcases Nat.eq_zero_or_pos (gcount n.conf y g) with h0 | hpos
    · rw [h0]
      rfl
    · have hs := h.2.2.2.2.2.1 y hy g hpos
      rw [hs] at hc
      simp at hc

lemma Esum_eq_shared {n : NGram α} (h : WF n) (q : Str) {y : α}
    (hy : y ∈ n.members) :
    Esum n.grams (split n.conf q) y = sharedGramCount n.conf q y := by
  unfold Esum sharedGramCount
  exact Finset.sum_congr rfl (fun g _ => by rw [cGv_eq_gcount h hy g])

lemma Esum_not_mem {n : NGram α} (h : WF n) (q : Str) {y : α}
    (hy : y ∉ n.members) : Esum n.grams (split n.conf q) y = 0 := by
  unfold Esum
  refine Finset.sum_eq_zero (fun g _ => ?_)
  unfold cGv
  rw [look2_none_of_not_mem h hy g]
  simp

lemma items_sharing_char {n : NGram α} (h : WF n) (q : Str) (y : α) :
    dlookup (items_sharing_ngrams n q) y =
      if y ∈ n.members ∧ 0 < sharedGramCount n.conf q y
      then some (sharedGramCount n.conf q y) else none := by
  rw [items_sharing_eq n q h.2.2.1 y]
  by_cases hy : y ∈ n.members
  · rw [Esum_eq_shared h q hy]
    by_cases hp : 0 < sharedGramCount n.conf q y
    · rw [if_pos ⟨hy, hp⟩, posOpt_pos hp]
    · rw [if_neg (fun hand => hp hand.2)]
      unfold posOpt
      rw [if_pos (by omega)]
  · rw [Esum_not_mem h q hy, if_neg (fun hand => hy hand.1)]
    rfl

lemma innerStep_shared_nodup (g0 : Str) (st : ShState α) (mc : α × Nat)
    (h : dNodupKeys st.shared) :
    dNodupKeys (innerStep g0 st mc).shared := by
  simp only [innerStep]
  split_ifs with hb
  · exact dNodupKeys_dinsert _ _ _ h
  · exact h

lemma innerFold_shared_nodup (g0 : Str) (I : List (α × Nat)) :
    ∀ st : ShState α, dNodupKeys st.shared →
      dNodupKeys ((I.foldl (innerStep g0) st).shared) := by
  induction I with
  | nil => exact fun st h => h
  | cons mc I ih =>
    intro st h
    rw [List.foldl_cons]
    exact ih _ (innerStep_shared_nodup g0 st mc h)

lemma items_sharing_nodup (n : NGram α) (q : Str) :
    dNodupKeys (items_sharing_ngrams n q) := by
  unfold items_sharing_ngrams
  generalize (split n.conf q) = qs
  have : ∀ (st : ShState α), dNodupKeys st.shared →
      dNodupKeys ((qs.foldl (gramStep n.grams) st).shared) := by
    induction qs with
    | nil => exact fun st h => h
    | cons g0 qs ih =>
      intro st h
      rw [List.foldl_cons]
      refine ih _ ?_
      unfold gramStep
      cases dlookup n.grams g0 with
      | none => exact h
      | some I => exact innerFold_shared_nodup g0 I st h
  exact this ⟨[], []⟩ (by simp [dNodupKeys])

/-! ### Search: bounds, definedness of the similarity, characterization -/

lemma split_length (c : NGramConf α) (s : Str) :
    (split c s).length = (pad c s).length + 1 - c.N := by
  simp [split, splitRaw]

lemma list_toFinset_sum_count (l : List Str) :
    ∑ g ∈ l.toFinset, l.count g = l.length := by
  induction l with
  | nil => simp
  | cons a l ih =>
    rw [List.toFinset_cons]
    by_cases ha : a ∈ l.toFinset
    · rw [Finset.insert_eq_self.mpr ha]
      have hterm : ∀ g ∈ l.toFinset,
          (a :: l).count g = l.count g + (if a = g then 1 else 0) := by
        intro g _
        simp [List.count_cons]
      rw [Finset.sum_congr rfl hterm, Finset.sum_add_distrib,
        Finset.sum_ite_eq l.toFinset a, if_pos ha, ih, List.length_cons]
    · rw [Finset.sum_insert ha]
      have hterm : ∀ g ∈ l.toFinset, (a :: l).count g = l.count g := by
        intro g hg
        have hga : g ≠ a := fun hh => ha (hh ▸ hg)
        simp [List.count_cons, hga]
      have hl0 : l.count a = 0 :=
        List.count_eq_zero.mpr (fun hm => ha (List.mem_toFinset.mpr hm))
      rw [Finset.sum_congr rfl hterm, ih, List.count_cons_self, hl0,
        List.length_cons]
      omega

lemma sharedGramCount_le_q (c : NGramConf α) (q : Str) (x : α) :
    sharedGramCount c q x ≤ (split c q).length := by
  unfold sharedGramCount
  calc ∑ g ∈ (split c q).toFinset,
        min ((split c q).count g) (gcount c x g)
      ≤ ∑ g ∈ (split c q).toFinset, (split c q).count g :=
        Finset.sum_le_sum (fun g _ => min_le_left _ _)
    _ = (split c q).length := list_toFinset_sum_count _

lemma sharedGramCount_le_x (c : NGramConf α) (q : Str) (x : α) :
    sharedGramCount c q x ≤ (split c (c.key x)).length := by
  unfold sharedGramCount
  have h1 : ∑ g ∈ (split c q).toFinset,
        min ((split c q).count g) (gcount c x g)
      ≤ ∑ g ∈ (split c q).toFinset, gcount c x g :=
    Finset.sum_le_sum (fun g _ => min_le_right _ _)
  have h2 : ∑ g ∈ (split c q).toFinset, gcount c x g
      ≤ ∑ g ∈ (split c q).toFinset ∪ (split c (c.key x)).toFinset,
          gcount c x g :=
    Finset.sum_le_sum_of_subset Finset.subset_union_left
  have h3 : ∑ g ∈ (split c q).toFinset ∪ (split c (c.key x)).toFinset,
        gcount c x g
      = ∑ g ∈ (split c (c.key x)).toFinset, gcount c x g := by
    refine (Finset.sum_subset Finset.subset_union_right ?_).symm
    intro g _ hgx
    unfold gcount
    exact List.count_eq_zero.mpr (fun hmem => hgx (List.mem_toFinset.mpr hmem))
  have h4 : ∑ g ∈ (split c (c.key x)).toFinset, gcount c x g
      = (split c (c.key x)).length := list_toFinset_sum_count _
  omega

lemma shared_entry_facts {n : NGram α} (h : WF n) {q : Str} {x : α}
    {k : Nat} (hk : dlookup (items_sharing_ngrams n q) x = some k) :
    x ∈ n.members ∧ k = sharedGramCount n.conf q x ∧ 0 < k ∧
      n.conf.N ≤ (pad n.conf q).length ∧
      n.conf.N ≤ (pad n.conf (n.conf.key x)).length ∧
      dlookup n.length x = some (pad n.conf (n.conf.key x)).length ∧
      1 ≤ allgramsOf n q x k := by
  rw [items_sharing_char h q x] at hk
  by_cases hcond : x ∈ n.members ∧ 0 < sharedGramCount n.conf q x
  case neg =>
    rw [if_neg hcond] at hk
    exact absurd hk (by simp)
  rw [if_pos hcond] at hk
  obtain ⟨hx, hpos⟩ := hcond
  have hkval : k = sharedGramCount n.conf q x := by
    simpa using hk.symm
  have hex : ∃ g, 0 < (split n.conf q).count g ∧ 0 < gcount n.conf x g := by
    by_contra hno
    push_neg at hno
    have hz : sharedGramCount n.conf q x = 0 := by
      unfold sharedGramCount
      refine Finset.sum_eq_zero (fun g _ => ?_)
      have := hno g
      omega
    omega
  obtain ⟨g, hgq, hgx⟩ := hex
  have hql : 0 < (split n.conf q).length :=
    lt_of_lt_of_le hgq (List.count_le_length _ _)
  have hxl : 0 < (split n.conf (n.conf.key x)).length := by
    unfold gcount at hgx
    exact lt_of_lt_of_le hgx (List.count_le_length _ _)
  have hNq : n.conf.N ≤ (pad n.conf q).length := by
    have := split_length n.conf q
    omega
  have hNx : n.conf.N ≤ (pad n.conf (n.conf.key x)).length := by
    have := split_length n.conf (n.conf.key x)
    omega
  have hlenx : dlookup n.length x =
      some (pad n.conf (n.conf.key x)).length := h.2.2.2.2.2.2.1 x hx
  refine ⟨hx, hkval, by omega, hNq, hNx, hlenx, ?_⟩
  have hbq : k ≤ (split n.conf q).length :=
    hkval ▸ sharedGramCount_le_q n.conf q x
  have hbx : k ≤ (split n.conf (n.conf.key x)).length :=
    hkval ▸ sharedGramCount_le_x n.conf q x
  have hlq := split_length n.conf q
  have hlx := split_length n.conf (n.conf.key x)
  unfold allgramsOf
  rw [hlenx]
  simp only [Option.getD_some]
  omega

lemma ngram_similarity_isSome {s a : ℤ} (ha : 1 ≤ a) (w : ℚ) :
    ∃ r : ℝ, ngram_similarity s a w = some r := by
  unfold ngram_similarity
  split_ifs with h1 h2 h3
  · exact absurd h2 (by omega)
  · exact ⟨_, rfl⟩
  · exfalso
    have hpos : (0 : ℝ) < (a : ℝ) := by
      have h1a : (1 : ℝ) ≤ (a : ℝ) := by exact_mod_cast ha
      linarith
    exact (ne_of_gt (Real.rpow_pos_of_pos hpos ((w : ℝ)))) h3
  · exact ⟨_, rfl⟩

lemma searchStep_sim_eq {n : NGram α} {q : Str} {t : ℚ}
    {res0 : List (α × ℝ)} {e : α × Nat} {s : ℝ}
    (hs : ngram_similarity (e.2 : ℤ) (allgramsOf n q e.1 e.2)
      n.conf.warp = some s) :
    searchStep n q t (some res0) e =
      if ((t : ℝ)) ≤ s then some (res0 ++ [(e.1, s)]) else some res0 := by
  unfold searchStep
  rw [hs]

lemma spick_sim_eq {n : NGram α} {q : Str} {t : ℚ} {e : α × Nat} {s : ℝ}
    (hs : ngram_similarity (e.2 : ℤ) (allgramsOf n q e.1 e.2)
      n.conf.warp = some s) :
    spick n q t e = if ((t : ℝ)) ≤ s then some (e.1, s) else none := by
  unfold spick
  rw [hs]

lemma search_foldl_eq (n : NGram α) (q : Str) (t : ℚ)
    (l : List (α × Nat)) (res0 : List (α × ℝ))
    (hall : ∀ e ∈ l, (ngram_similarity (e.2 : ℤ) (allgramsOf n q e.1 e.2)
      n.conf.warp).isSome) :
    l.foldl (searchStep n q t) (some res0) =
      some (res0 ++ l.filterMap (spick n q t)) := by
  induction l generalizing res0 with
  | nil => simp
  | cons e l ih =>
    rw [List.foldl_cons]
    obtain ⟨s, hs⟩ := Option.isSome_iff_exists.mp
      (hall e (List.mem_cons_self _ _))
    have hall' : ∀ e' ∈ l, (ngram_similarity (e'.2 : ℤ)
        (allgramsOf n q e'.1 e'.2) n.conf.warp).isSome :=
      fun e' he' => hall e' (List.mem_cons_of_mem _ he')
    rw [searchStep_sim_eq hs, List.filterMap_cons, spick_sim_eq hs]
    by_cases hts : ((t : ℝ)) ≤ s
    · rw [if_pos hts, if_pos hts, ih _ hall']
      simp
    · rw [if_neg hts, if_neg hts, ih _ hall']

lemma search_spec {n : NGram α} (h : WF n) (q : Str) (tOpt : Option ℚ) :
    ∃ res, search n q tOpt = some res ∧
      List.Sorted (fun a b : α × ℝ => b.2 ≤ a.2) res ∧
      ∀ x s, ((x, s) ∈ res ↔ ∃ k,
        dlookup (items_sharing_ngrams n q) x = some k ∧ 1 ≤ k ∧
        ngram_similarity (k : ℤ) (allgramsOf n q x k) n.conf.warp = some s ∧
        ((tOpt.getD n.conf.threshold : ℚ) : ℝ) ≤ s) := by
  have hall : ∀ e ∈ items_sharing_ngrams n q,
      (ngram_similarity (e.2 : ℤ) (allgramsOf n q e.1 e.2)
        n.conf.warp).isSome := by
    intro e he
    have hlk : dlookup (items_sharing_ngrams n q) e.1 = some e.2 :=
      mem_dlookup (items_sharing_nodup n q) (by simpa using he)
    obtain ⟨r, hr⟩ := ngram_similarity_isSome
      (shared_entry_facts h hlk).2.2.2.2.2.2 n.conf.warp
    rw [hr]
    rfl
  refine ⟨List.insertionSort (fun a b : α × ℝ => b.2 ≤ a.2)
    ((items_sharing_ngrams n q).filterMap
      (spick n q (tOpt.getD n.conf.threshold))), ?_, ?_, ?_⟩
  · show Option.map (List.insertionSort (fun a b : α × ℝ => b.2 ≤ a.2))
        ((items_sharing_ngrams n q).foldl
          (searchStep n q (tOpt.getD n.conf.threshold)) (some [])) = some _
    rw [search_foldl_eq n q _ _ [] hall]
    simp
  · haveI : IsTotal (α × ℝ) (fun a b : α × ℝ => b.2 ≤ a.2) :=
      ⟨fun a b => (le_total b.2 a.2)⟩
    haveI : IsTrans (α × ℝ) (fun a b : α × ℝ => b.2 ≤ a.2) :=
      ⟨fun a b c hab hbc => le_trans hbc hab⟩
    exact List.sorted_insertionSort _ _
  · intro x s
    rw [(List.perm_insertionSort _ _).mem_iff, List.mem_filterMap]
    constructor
    · rintro ⟨e, he, hpk⟩
      have hlk : dlookup (items_sharing_ngrams n q) e.1 = some e.2 :=
        mem_dlookup (items_sharing_nodup n q) (by simpa using he)
      obtain ⟨r, hr⟩ := Option.isSome_iff_exists.mp (hall e he)
      rw [spick_sim_eq hr] at hpk
      by_cases hts : ((tOpt.getD n.conf.threshold : ℚ) : ℝ) ≤ r
      · rw [if_pos hts] at hpk
        have hx1 : e.1 = x := congrArg Prod.fst (Option.some.inj hpk)
        have hs1 : r = s := congrArg Prod.snd (Option.some.inj hpk)
        refine ⟨e.2, by rw [← hx1]; exact hlk, ?_, ?_, ?_⟩
        · have := (shared_entry_facts h hlk).2.2.1
          omega
        · rw [← hx1, ← hs1]
          exact hr
        · rw [← hs1]
          exact hts
      · rw [if_neg hts] at hpk
        exact absurd hpk (by simp)
    · rintro ⟨k, hlk, hk1, hsim, hts⟩
      refine ⟨(x, k), dlookup_some_mem hlk, ?_⟩
      have hq := spick_sim_eq (n := n) (q := q)
        (t := tOpt.getD n.conf.threshold) (e := (x, k)) (s := s) hsim
      rw [hq, if_pos hts]

/-! ### Self-similarity, round-trip, membership and similarity facts -/

lemma sharedGramCount_self (c : NGramConf α) (x : α) :
    sharedGramCount c (c.key x) x = (split c (c.key x)).length := by
  unfold sharedGramCount gcount
  simp only [min_self]
  exact list_toFinset_sum_count _

lemma ngram_similarity_self {k : ℤ} (hk : 1 ≤ k) {w : ℚ} (hw : 1 ≤ w) :
    ngram_similarity k k w = some 1 := by
  have hkR : (0 : ℝ) < (k : ℝ) := by
    have : (1 : ℝ) ≤ (k : ℝ) := by exact_mod_cast hk
    linarith
  have hwR : ((w : ℝ)) ≠ 0 := by
    have : (1 : ℝ) ≤ (w : ℝ) := by exact_mod_cast hw
    intro hh
    rw [hh] at this
    linarith
  unfold ngram_similarity
  split_ifs with h1 h2 h3
  · exact absurd h2 (by omega)
  · rw [div_self (by exact_mod_cast (by omega : k ≠ 0))]
  · exact absurd h3 (ne_of_gt (Real.rpow_pos_of_pos hkR _))
  · have hz : ((k - k : ℤ) : ℝ) = 0 := by
      push_cast
      ring
    rw [hz, Real.zero_rpow hwR, sub_zero,
      div_self (ne_of_gt (Real.rpow_pos_of_pos hkR _))]

lemma search_self {n : NGram α} (hre : Reachable n) {x : α}
    (hx : x ∈ n.members) (ht : n.conf.threshold ≤ 1)
    (hw : 1 ≤ n.conf.warp)
    (hL : n.conf.N ≤ (pad n.conf (n.conf.key x)).length) :
    ∃ res, search n (n.conf.key x) none = some res ∧ (x, (1 : ℝ)) ∈ res := by
  have h := reach_WF hre
  obtain ⟨res, hs, _, hmem⟩ := search_spec h (n.conf.key x) none
  refine ⟨res, hs, ?_⟩
  have hSL : sharedGramCount n.conf (n.conf.key x) x =
      (split n.conf (n.conf.key x)).length := sharedGramCount_self n.conf x
  have hlq := split_length n.conf (n.conf.key x)
  have hpos : 0 < sharedGramCount n.conf (n.conf.key x) x := by
    omega
  have hlk : dlookup (items_sharing_ngrams n (n.conf.key x)) x =
      some (sharedGramCount n.conf (n.conf.key x) x) := by
    rw [items_sharing_char h, if_pos ⟨hx, hpos⟩]
  have hlen : dlookup n.length x =
      some (pad n.conf (n.conf.key x)).length := h.2.2.2.2.2.2.1 x hx
  have hag : allgramsOf n (n.conf.key x) x
      (sharedGramCount n.conf (n.conf.key x) x) =
      ((sharedGramCount n.conf (n.conf.key x) x : Nat) : ℤ) := by
    unfold allgramsOf
    rw [hlen]
    simp only [Option.getD_some]
    omega
  have hsim : ngram_similarity
      ((sharedGramCount n.conf (n.conf.key x) x : Nat) : ℤ)
      (allgramsOf n (n.conf.key x) x
        (sharedGramCount n.conf (n.conf.key x) x))
      n.conf.warp = some 1 := by
    rw [hag]
    exact ngram_similarity_self (by exact_mod_cast hpos) hw
  rw [hmem x 1]
  refine ⟨sharedGramCount n.conf (n.conf.key x) x, hlk, by omega, hsim, ?_⟩
  show ((Option.getD none n.conf.threshold : ℚ) : ℝ) ≤ 1
  rw [Option.getD_none]
  exact_mod_cast ht

lemma ngram_similarity_zero_allgrams (s : ℤ) {w : ℚ} (hw : 1 ≤ w) :
    ngram_similarity s 0 w = none := by
  have hwR : ((w : ℝ)) ≠ 0 := by
    have : (1 : ℝ) ≤ (w : ℝ) := by exact_mod_cast hw
    intro hh
    rw [hh] at this
    linarith
  unfold ngram_similarity
  split_ifs with h1 h2 h3
  · rfl
  · exact absurd rfl h2
  · rfl
  · exact absurd (by rw [Int.cast_zero, Real.zero_rpow hwR]) h3

lemma remove_not_mem {n : NGram α} {x : α} (hx : x ∉ n.members) :
    remove n x = n := by
  unfold remove
  rw [if_neg hx]

lemma discardItem_not_mem {n : NGram α} {x : α} (hx : x ∉ n.members) :
    discardItem n x = n := by
  unfold discardItem
  rw [if_neg hx]

lemma add_of_mem {n : NGram α} {x : α} (hx : x ∈ n.members) :
    add n x = n := by
  unfold add
  rw [if_pos hx]

lemma add_mem_self (n : NGram α) (x : α) : x ∈ (add n x).members := by
  by_cases hx : x ∈ n.members
  · rw [add_of_mem hx]
    exact hx
  · rw [(add_fields hx).2.1]
    exact List.mem_append_right _ (List.mem_singleton_self _)

lemma addNG_idem (n : NGram α) (x : α) : add (add n x) x = add n x :=
  add_of_mem (add_mem_self n x)

lemma add_remove_roundtrip {n : NGram α} {x : α} (hre : Reachable n)
    (hx : x ∉ n.members) :
    (remove (add n x) x).conf = n.conf ∧
    (remove (add n x) x).members = n.members ∧
    (remove (add n x) x).length = n.length ∧
    (∀ g y, look2 (remove (add n x) x).grams g y = look2 n.grams g y) := by
  have h := reach_WF hre
  have hlen : dlookup n.length x = none := by
    cases hL : dlookup n.length x with
    | none => rfl
    | some L => exact absurd (h.2.2.2.2.2.2.2 x L hL) hx
  have hgr : ∀ g, look2 n.grams g x = none := look2_none_of_not_mem h hx
  obtain ⟨ac, am, ag, al⟩ := add_fields hx
  have hx2 : x ∈ (add n x).members := add_mem_self n x
  obtain ⟨rc, rm, rg, rl⟩ := remove_fields hx2
  have hconf : (remove (add n x) x).conf = n.conf := rc.trans ac
  refine ⟨hconf, ?_, ?_, ?_⟩
  · rw [rm, am, List.erase_append_right _ hx, List.erase_cons_head,
      List.append_nil]
  · rw [rl, al, derase_dinsert_of_not_mem _ _ _ hlen]
  · intro g y
    rw [rg, ag, ac]
    obtain ⟨ng1, ng2⟩ := nodup_addFold (x := x)
      (split n.conf (n.conf.key x)) h.2.1 h.2.2.1
    by_cases hy : y = x
    · subst hy
      rw [look2_removeFold_self y _ ng1 ng2]
      by_cases hmem : g ∈ (split n.conf (n.conf.key y)).dedup
      · rw [if_pos hmem, hgr g]
      · rw [if_neg hmem, look2_addFold_self, hgr g]
        have hc0 : (split n.conf (n.conf.key y)).count g = 0 :=
          List.count_eq_zero.mpr (fun hm => hmem (List.mem_dedup.mpr hm))
        rw [hc0, if_neg (by omega)]
    · rw [look2_removeFold_ne hy, look2_addFold_ne hy]

lemma mem_add_iff (n : NGram α) (a y : α) :
    y ∈ (add n a).members ↔ y ∈ n.members ∨ y = a := by
  by_cases hx : a ∈ n.members
  · rw [add_of_mem hx]
    constructor
    · exact fun h => Or.inl h
    · rintro (h | rfl)
      · exact h
      · exact hx
  · rw [(add_fields hx).2.1, List.mem_append, List.mem_singleton]

lemma mem_foldl_add (l : List α) :
    ∀ (n : NGram α) (y : α),
      (y ∈ (l.foldl add n).members ↔ y ∈ n.members ∨ y ∈ l) := by
  induction l with
  | nil => simp
  | cons a l ih =>
    intro n y
    rw [List.foldl_cons, ih (add n a) y, mem_add_iff, List.mem_cons]
    tauto

lemma mem_build (c : NGramConf α) (l : List α) (y : α) :
    y ∈ (build c l).members ↔ y ∈ l := by
  unfold build
  rw [mem_foldl_add]
  simp [emptyNG]

lemma mem_foldl_discardItem (l : List α) :
    ∀ (n : NGram α), n.members.Nodup → ∀ y,
      (y ∈ (l.foldl discardItem n).members ↔ y ∈ n.members ∧ y ∉ l) := by
  induction l with
  | nil => simp
  | cons a l ih =>
    intro n hnod y
    rw [List.foldl_cons]
    have hnod' : (discardItem n a).members.Nodup := by
      rw [members_discardItem]
      exact hnod.erase a
    rw [ih _ hnod' y, members_discardItem, hnod.mem_erase_iff,
      List.mem_cons]
    tauto

/-! ### The claims -/

/-- Claim C10: `clear()` empties all three state collections (the
membership set, the gram-count mapping `_grams` and the padded-length
mapping `length`) while leaving every configuration field unchanged, so
the cleared index equals a freshly constructed empty index with the
same configuration. -/
theorem claim10 (n : NGram α) :
    clear n = emptyNG n.conf ∧ (clear n).conf = n.conf ∧
      (clear n).members = [] ∧ (clear n).grams = [] ∧
      (clear n).length = [] :=
  ⟨rfl, rfl, rfl, rfl, rfl⟩

/-- Claim C7: calling `add(x)` twice leaves the index in the same state
as calling it once, and re-adding an existing member is a no-op. -/
theorem claim7 (n : NGram α) (x : α) :
    add (add n x) x = add n x ∧ (x ∈ n.members → add n x = n) :=
  ⟨addNG_idem n x, fun hx => add_of_mem hx⟩

/-- Witness for C7 at a concrete instance: `'a'` is a member after one
`add`, and the second `add` is a no-op. -/
theorem claim7_witness :
    (['a'] : Str) ∈ (add (emptyNG
      (⟨1, 0, '$', 0, 1, id⟩ : NGramConf Str)) ['a']).members ∧
    add (add (emptyNG
      (⟨1, 0, '$', 0, 1, id⟩ : NGramConf Str)) ['a']) ['a'] =
      add (emptyNG (⟨1, 0, '$', 0, 1, id⟩ : NGramConf Str)) ['a'] :=
  ⟨by decide,
    (claim7 (add (emptyNG (⟨1, 0, '$', 0, 1, id⟩ : NGramConf Str)) ['a'])
      ['a']).2 (by decide)⟩

/-- Counterexample for C4 as stated: `NGram.remove` is guarded by
`if item in self`, so removing a non-member raises no `NotFoundError`
(there is no error path at all) — it returns normally with the index
unchanged, exactly like `discard`. -/
theorem claim4_cex :
    remove (emptyNG (⟨1, 0, '$', 0, 1, id⟩ : NGramConf Str)) ['a'] =
      emptyNG (⟨1, 0, '$', 0, 1, id⟩ : NGramConf Str) :=
  remove_not_mem (by decide)

/-- Claim C4 (amended): `remove(item)` on a non-member is a silent
no-op identical to `discard(item)`; in both cases the index state is
left unchanged.  (The source guards `remove` with `if item in self`,
so no `NotFoundError` is surfaced.) -/
theorem claim4 (n : NGram α) (x : α) (hx : x ∉ n.members) :
    remove n x = n ∧ discardItem n x = n ∧
      remove n x = discardItem n x :=
  ⟨remove_not_mem hx, discardItem_not_mem hx,
    (remove_not_mem hx).trans (discardItem_not_mem hx).symm⟩

/-- Witness for C4 at a concrete instance. -/
theorem claim4_witness :
    (['a'] : Str) ∉ (emptyNG
      (⟨1, 0, '$', 0, 1, id⟩ : NGramConf Str)).members ∧
    (remove (emptyNG (⟨1, 0, '$', 0, 1, id⟩ : NGramConf Str)) ['a'] =
        emptyNG (⟨1, 0, '$', 0, 1, id⟩ : NGramConf Str) ∧
      discardItem (emptyNG
        (⟨1, 0, '$', 0, 1, id⟩ : NGramConf Str)) ['a'] =
        emptyNG (⟨1, 0, '$', 0, 1, id⟩ : NGramConf Str) ∧
      remove (emptyNG (⟨1, 0, '$', 0, 1, id⟩ : NGramConf Str)) ['a'] =
        discardItem (emptyNG
          (⟨1, 0, '$', 0, 1, id⟩ : NGramConf Str)) ['a']) :=
  ⟨by decide, claim4 _ _ (by decide)⟩

/-- Counterexample for C5 as stated: `ngram_similarity(5, 0, 1.0)` hits
`float(samegrams) / allgrams` with a zero denominator and raises
`ZeroDivisionError` (modelled `none`); it does not return 0.0. -/
theorem claim5_cex : ngram_similarity 5 0 1 = none := by
  unfold ngram_similarity
  norm_num

/-- Claim C5 (amended): for every `samegrams` and every warp in
[1.0, 3.0], the degenerate input `allgrams = 0` makes
`ngram_similarity` raise a division-by-zero error (modelled `none`) in
both branches of the formula, rather than returning 0.0. -/
theorem claim5 (s : ℤ) (w : ℚ) (hw1 : 1 ≤ w) (hw3 : w ≤ 3) :
    ngram_similarity s 0 w = none :=
  ngram_similarity_zero_allgrams s hw1

/-- Witness for C5 at a concrete instance. -/
theorem claim5_witness :
    (1 : ℚ) ≤ 2 ∧ (2 : ℚ) ≤ 3 ∧ ngram_similarity 5 0 2 = none :=
  ⟨by norm_num, by norm_num, claim5 5 2 (by norm_num) (by norm_num)⟩

/-- Claim C8: construction fails with a configuration error naming the
offending parameter and carrying its illegal value exactly when a
parameter is out of range (threshold outside [0,1], warp outside
[1,3], N < 1, pad_len outside [0,N), pad_char not a single character);
with all parameters in range construction succeeds.  The key function
is typed `α → Str` in this embedding, so the Python `callable(key)`
check cannot fail and is vacuously satisfied. -/
theorem claim8 (key : α → Str) (items : List α) (t w : ℚ) (N : ℤ)
    (pl : Option ℤ) (pc : Str) :
    ((∃ ng, mkNGram key items t w N pl pc = Except.ok ng) ↔
      ((0 ≤ t ∧ t ≤ 1) ∧ (1 ≤ w ∧ w ≤ 3) ∧ 1 ≤ N ∧
        (0 ≤ pl.getD (N - 1) ∧ pl.getD (N - 1) < N) ∧ pc.length = 1)) ∧
    (¬(0 ≤ t ∧ t ≤ 1) → mkNGram key items t w N pl pc =
      Except.error (ConfigError.thresholdOutOfRange t)) ∧
    ((0 ≤ t ∧ t ≤ 1) → ¬(1 ≤ w ∧ w ≤ 3) → mkNGram key items t w N pl pc =
      Except.error (ConfigError.warpOutOfRange w)) ∧
    ((0 ≤ t ∧ t ≤ 1) → (1 ≤ w ∧ w ≤ 3) → ¬(1 ≤ N) →
      mkNGram key items t w N pl pc =
        Except.error (ConfigError.nOutOfRange N)) ∧
    ((0 ≤ t ∧ t ≤ 1) → (1 ≤ w ∧ w ≤ 3) → (1 ≤ N) →
      ¬(0 ≤ pl.getD (N - 1) ∧ pl.getD (N - 1) < N) →
      mkNGram key items t w N pl pc =
        Except.error (ConfigError.padLenOutOfRange (pl.getD (N - 1)))) ∧
    ((0 ≤ t ∧ t ≤ 1) → (1 ≤ w ∧ w ≤ 3) → (1 ≤ N) →
      (0 ≤ pl.getD (N - 1) ∧ pl.getD (N - 1) < N) → ¬(pc.length = 1) →
      mkNGram key items t w N pl pc =
        Except.error (ConfigError.padCharNotSingleChar pc)) := by
  simp only [mkNGram]
  split_ifs with h1 h2 h3 h4 h5 <;>
    refine ⟨?_, ?_, ?_, ?_, ?_, ?_⟩ <;> simp_all

/-- Witness for C8: an out-of-range threshold is rejected with the
error naming it, and an in-range configuration is accepted. -/
theorem claim8_witness :
    mkNGram (id : Str → Str) [] 2 1 3 none ['$'] =
      Except.error (ConfigError.thresholdOutOfRange 2) ∧
    ∃ ng, mkNGram (id : Str → Str) [] 0 1 3 none ['$'] = Except.ok ng :=
  ⟨(claim8 (id : Str → Str) [] 2 1 3 none ['$']).2.1 (by norm_num),
    (claim8 (id : Str → Str) [] 0 1 3 none ['$']).1.mpr (by decide)⟩

/-- Counterexample for C3 as stated: after `add('a'); remove('a')` on a
fresh index (N = 1, pad_len = 0), `_grams` is not bit-identical to its
pre-add value: `remove` deletes inner entries but leaves the gram key
behind, mapped to an empty inner dictionary, so `_grams` grows from
`{}` to `{'a': {}}`. -/
theorem claim3_cex :
    (remove (add (emptyNG (⟨1, 0, '$', 0, 1, id⟩ : NGramConf Str)) ['a'])
        ['a']).grams ≠
      (emptyNG (⟨1, 0, '$', 0, 1, id⟩ : NGramConf Str)).grams := by
  decide

/-- Claim C3 (amended): for a reachable state and a non-member `x`,
`add(x); remove(x)` restores the configuration, the membership set and
the `length` mapping bit-identically, and restores the gram table up to
gram-key residue: every inner lookup `_grams[g][y]` is restored exactly,
but outer gram keys of `x` may remain, mapped to empty inner
dictionaries (so `_grams` itself need not be bit-identical). -/
theorem claim3 (n : NGram α) (x : α) (hre : Reachable n)
    (hx : x ∉ n.members) :
    (remove (add n x) x).conf = n.conf ∧
    (remove (add n x) x).members = n.members ∧
    (remove (add n x) x).length = n.length ∧
    (∀ g y, look2 (remove (add n x) x).grams g y = look2 n.grams g y) :=
  add_remove_roundtrip hre hx

/-- Witness for C3 at a concrete instance. -/
theorem claim3_witness :
    Reachable (emptyNG (⟨1, 0, '$', 0, 1, id⟩ : NGramConf Str)) ∧
    (['a'] : Str) ∉ (emptyNG
      (⟨1, 0, '$', 0, 1, id⟩ : NGramConf Str)).members ∧
    (remove (add (emptyNG (⟨1, 0, '$', 0, 1, id⟩ : NGramConf Str)) ['a'])
      ['a']).members =
      (emptyNG (⟨1, 0, '$', 0, 1, id⟩ : NGramConf Str)).members ∧
    (remove (add (emptyNG (⟨1, 0, '$', 0, 1, id⟩ : NGramConf Str)) ['a'])
      ['a']).length =
      (emptyNG (⟨1, 0, '$', 0, 1, id⟩ : NGramConf Str)).length :=
  ⟨Reachable.empty _, by decide,
    (claim3 (emptyNG (⟨1, 0, '$', 0, 1, id⟩ : NGramConf Str)) ['a']
      (Reachable.empty _) (by decide)).2.1,
    (claim3 (emptyNG (⟨1, 0, '$', 0, 1, id⟩ : NGramConf Str)) ['a']
      (Reachable.empty _) (by decide)).2.2.1⟩

/-- Claim C1: for every reachable index state and every query string,
`items_sharing_ngrams(query)` has an entry for exactly those member
items sharing at least one padded gram with the padded query, and the
value for such an item is the multiset-intersection cardinality
`Σ_g min(count of g in padded query, count of g in the item's padded
key)` (`sharedGramCount`). -/
theorem claim1 (n : NGram α) (hre : Reachable n) (q : Str) (x : α) :
    dlookup (items_sharing_ngrams n q) x =
      if x ∈ n.members ∧ 0 < sharedGramCount n.conf q x
      then some (sharedGramCount n.conf q x) else none :=
  items_sharing_char (reach_WF hre) q x

/-- Witness for C1 at a concrete instance. -/
theorem claim1_witness :
    Reachable (add (emptyNG
      (⟨1, 0, '$', 0, 1, id⟩ : NGramConf Str)) ['a']) ∧
    dlookup (items_sharing_ngrams (add (emptyNG
        (⟨1, 0, '$', 0, 1, id⟩ : NGramConf Str)) ['a']) ['a']) ['a'] =
      (if (['a'] : Str) ∈ (add (emptyNG
            (⟨1, 0, '$', 0, 1, id⟩ : NGramConf Str)) ['a']).members ∧
          0 < sharedGramCount
            (add (emptyNG (⟨1, 0, '$', 0, 1, id⟩ : NGramConf Str))
              ['a']).conf ['a'] ['a']
        then some (sharedGramCount
          (add (emptyNG (⟨1, 0, '$', 0, 1, id⟩ : NGramConf Str))
            ['a']).conf ['a'] ['a']) else none) :=
  ⟨Reachable.add ['a'] (Reachable.empty _),
    claim1 _ (Reachable.add ['a'] (Reachable.empty _)) ['a'] ['a']⟩

/-- Claim C2: for every reachable index and query, `search(query, t)` —
with `t` defaulting to the configured threshold when not given —
returns (without raising) exactly the pairs `(item, similarity)` for
items with a nonzero shared-gram count whose similarity
`ngram_similarity(samegrams, allgrams, warp)` with
`allgrams = len(pad(query)) + length[item] - 2N - samegrams + 2`
(`allgramsOf`) reaches the threshold, in non-increasing order of
similarity. -/
theorem claim2 (n : NGram α) (hre : Reachable n) (q : Str)
    (tOpt : Option ℚ) :
    ∃ res, search n q tOpt = some res ∧
      List.Sorted (fun a b : α × ℝ => b.2 ≤ a.2) res ∧
      ∀ x s, ((x, s) ∈ res ↔ ∃ k,
        dlookup (items_sharing_ngrams n q) x = some k ∧ 1 ≤ k ∧
        ngram_similarity (k : ℤ) (allgramsOf n q x k) n.conf.warp =
          some s ∧
        ((tOpt.getD n.conf.threshold : ℚ) : ℝ) ≤ s) :=
  search_spec (reach_WF hre) q tOpt

/-- Witness for C2 at a concrete instance. -/
theorem claim2_witness :
    Reachable (add (emptyNG
      (⟨1, 0, '$', 0, 1, id⟩ : NGramConf Str)) ['a']) ∧
    ∃ res, search (add (emptyNG
        (⟨1, 0, '$', 0, 1, id⟩ : NGramConf Str)) ['a']) ['a'] none =
        some res ∧
      List.Sorted (fun a b : Str × ℝ => b.2 ≤ a.2) res ∧
      ∀ x s, ((x, s) ∈ res ↔ ∃ k,
        dlookup (items_sharing_ngrams (add (emptyNG
          (⟨1, 0, '$', 0, 1, id⟩ : NGramConf Str)) ['a']) ['a']) x =
            some k ∧ 1 ≤ k ∧
        ngram_similarity (k : ℤ) (allgramsOf (add (emptyNG
          (⟨1, 0, '$', 0, 1, id⟩ : NGramConf Str)) ['a']) ['a'] x k)
          (add (emptyNG (⟨1, 0, '$', 0, 1, id⟩ : NGramConf Str))
            ['a']).conf.warp = some s ∧
        ((Option.getD none (add (emptyNG
            (⟨1, 0, '$', 0, 1, id⟩ : NGramConf Str))
            ['a']).conf.threshold : ℚ) : ℝ) ≤ s) :=
  ⟨Reachable.add ['a'] (Reachable.empty _),
    claim2 _ (Reachable.add ['a'] (Reachable.empty _)) ['a'] none⟩

lemma mem_intersection_update (c : NGramConf α) (l1 : List α)
    (S2 : Finset α) (y : α) :
    y ∈ (intersection_update (build c l1) S2).members ↔
      y ∈ l1 ∧ y ∈ S2 := by
  unfold intersection_update difference_update
  have hnod : (build c l1).members.Nodup := (reach_WF (reach_build c l1)).1
  rw [mem_foldl_discardItem _ _ hnod y]
  simp only [List.mem_filter, decide_eq_true_eq, not_and, not_not,
    mem_build]
  constructor
  · rintro ⟨h1, h2⟩
    exact ⟨h1, h2 h1⟩
  · rintro ⟨h1, h2⟩
    exact ⟨h1, fun _ => h2⟩

/-- Claim C6 (amended): on any reachable index with a valid
configuration (threshold ≤ 1, warp ≥ 1), `search(key(x))` for a member
`x` returns `x` with score exactly 1.0 — provided the padded key of
`x` contains at least one N-gram (padded length ≥ N).  Members whose
padded key is shorter than N produce no grams, share nothing with any
query, and are never returned (see the counterexample). -/
theorem claim6 (n : NGram α) (x : α) (hre : Reachable n)
    (hx : x ∈ n.members) (ht : n.conf.threshold ≤ 1)
    (hw : 1 ≤ n.conf.warp)
    (hL : n.conf.N ≤ (pad n.conf (n.conf.key x)).length) :
    ∃ res, search n (n.conf.key x) none = some res ∧
      (x, (1 : ℝ)) ∈ res :=
  search_self hre hx ht hw hL

/-- Counterexample for C6 as stated: with the valid configuration
N = 1, pad_len = 0 (threshold 0, warp 1, identity key), the empty
string is a member of the index but its padded key has no grams, so
searching for its own key returns the empty result list — the member is
not returned with score 1.0. -/
theorem claim6_cex :
    ([] : Str) ∈ (add (emptyNG
      (⟨1, 0, '$', 0, 1, id⟩ : NGramConf Str)) ([] : Str)).members ∧
    search (add (emptyNG (⟨1, 0, '$', 0, 1, id⟩ : NGramConf Str))
      ([] : Str)) ([] : Str) none = some [] ∧
    ¬∃ res, search (add (emptyNG
        (⟨1, 0, '$', 0, 1, id⟩ : NGramConf Str)) ([] : Str)) ([] : Str)
        none = some res ∧ (([] : Str), (1 : ℝ)) ∈ res := by
  have hsh : items_sharing_ngrams (add (emptyNG
      (⟨1, 0, '$', 0, 1, id⟩ : NGramConf Str)) ([] : Str)) ([] : Str) =
      [] := by decide
  obtain ⟨res, hs, _, hmem⟩ := search_spec
    (reach_WF (Reachable.add ([] : Str) (Reachable.empty
      (⟨1, 0, '$', 0, 1, id⟩ : NGramConf Str)))) ([] : Str) none
  have hres : res = [] := by
    rw [List.eq_nil_iff_forall_not_mem]
    intro p hp
    obtain ⟨k, hk, _⟩ := (hmem p.1 p.2).mp (by simpa using hp)
    rw [hsh] at hk
    simp [dlookup] at hk
  rw [hres] at hs
  refine ⟨by decide, hs, ?_⟩
  rintro ⟨res2, hs2, hmem2⟩
  rw [hs] at hs2
  have hr2 : res2 = [] := (Option.some.inj hs2).symm
  rw [hr2] at hmem2
  simp at hmem2

/-- Witness for C6 at a concrete instance. -/
theorem claim6_witness :
    Reachable (add (emptyNG
      (⟨1, 0, '$', 0, 1, id⟩ : NGramConf Str)) ['a']) ∧
    (['a'] : Str) ∈ (add (emptyNG
      (⟨1, 0, '$', 0, 1, id⟩ : NGramConf Str)) ['a']).members ∧
    ∃ res, search (add (emptyNG
        (⟨1, 0, '$', 0, 1, id⟩ : NGramConf Str)) ['a'])
        ((add (emptyNG (⟨1, 0, '$', 0, 1, id⟩ : NGramConf Str))
          ['a']).conf.key ['a']) none = some res ∧
      ((['a'] : Str), (1 : ℝ)) ∈ res :=
  ⟨Reachable.add ['a'] (Reachable.empty _), by decide,
    claim6 _ ['a'] (Reachable.add ['a'] (Reachable.empty _)) (by decide)
      (by decide) (by decide) (by decide)⟩

/-- Claim C9: for an index built over the items of `l1`,
`intersection_update` with a set `S2` makes the membership equal to
`S1 ∩ S2`, and any subsequent search returns only items of `S1 ∩ S2`,
never a removed item. -/
theorem claim9 (c : NGramConf α) (l1 : List α) (S2 : Finset α) :
    (intersection_update (build c l1) S2).members.toFinset =
      l1.toFinset ∩ S2 ∧
    ∀ q tOpt res x s,
      search (intersection_update (build c l1) S2) q tOpt = some res →
      (x, s) ∈ res → x ∈ l1.toFinset ∩ S2 := by
  constructor
  · ext y
    rw [List.mem_toFinset, mem_intersection_update, Finset.mem_inter,
      List.mem_toFinset]
  · intro q tOpt res x s hs hmem
    have hre : Reachable (intersection_update (build c l1) S2) :=
      reach_intersection_update (reach_build c l1) S2
    obtain ⟨res0, hs0, _, hiff⟩ := search_spec (reach_WF hre) q tOpt
    rw [hs0] at hs
    obtain rfl : res0 = res := Option.some.inj hs
    obtain ⟨k, hk, _⟩ := (hiff x s).mp hmem
    have hx := (shared_entry_facts (reach_WF hre) hk).1
    rw [Finset.mem_inter, List.mem_toFinset]
    exact (mem_intersection_update c l1 S2 x).mp hx

/-- Witness for C9 at a concrete instance: after intersecting the index
over `{a, b}` with `{a}`, a successful search for `a` returns only
items of the intersection. -/
theorem claim9_witness :
    (['a'] : Str) ∈ ([[ 'a'], ['b']] : List Str).toFinset ∩
      ({['a']} : Finset Str) := by
  obtain ⟨res, hs, _, hmem⟩ := search_spec
    (reach_WF (reach_intersection_update
      (reach_build (⟨1, 0, '$', 0, 1, id⟩ : NGramConf Str)
        [['a'], ['b']]) ({['a']} : Finset Str))) ['a'] none
  have hag : allgramsOf (intersection_update
      (build (⟨1, 0, '$', 0, 1, id⟩ : NGramConf Str) [['a'], ['b']])
      ({['a']} : Finset Str)) ['a'] ['a'] 1 = 1 := by decide
  have hwrp : (intersection_update
      (build (⟨1, 0, '$', 0, 1, id⟩ : NGramConf Str) [['a'], ['b']])
      ({['a']} : Finset Str)).conf.warp = 1 := by decide
  have hth : (intersection_update
      (build (⟨1, 0, '$', 0, 1, id⟩ : NGramConf Str) [['a'], ['b']])
      ({['a']} : Finset Str)).conf.threshold = 0 := by decide
  have hsim : ngram_similarity ((1 : Nat) : ℤ) (allgramsOf
      (intersection_update
        (build (⟨1, 0, '$', 0, 1, id⟩ : NGramConf Str) [['a'], ['b']])
        ({['a']} : Finset Str)) ['a'] ['a'] 1)
      (intersection_update
        (build (⟨1, 0, '$', 0, 1, id⟩ : NGramConf Str) [['a'], ['b']])
        ({['a']} : Finset Str)).conf.warp = some 1 := by
    rw [hag, hwrp]
    exact ngram_similarity_self (by norm_num) (by norm_num)
  have hlk : dlookup (items_sharing_ngrams (intersection_update
      (build (⟨1, 0, '$', 0, 1, id⟩ : NGramConf Str) [['a'], ['b']])
      ({['a']} : Finset Str)) ['a']) ['a'] = some 1 := by decide
  have hthr : ((Option.getD none (intersection_update
      (build (⟨1, 0, '$', 0, 1, id⟩ : NGramConf Str) [['a'], ['b']])
      ({['a']} : Finset Str)).conf.threshold : ℚ) : ℝ) ≤ 1 := by
    rw [Option.getD_none, hth]
    norm_num
  have hmem1 : ((['a'] : Str), (1 : ℝ)) ∈ res :=
    (hmem ['a'] 1).mpr ⟨1, hlk, le_refl 1, hsim, hthr⟩
  exact (claim9 (⟨1, 0, '$', 0, 1, id⟩ : NGramConf Str) [['a'], ['b']]
    ({['a']} : Finset Str)).2 ['a'] none res ['a'] 1 hs hmem1
